import Mathlib

/-!
# Verification of the db-sync differential table synchronizer

A shallow embedding, in Lean 4, of the core data structures and algorithms of
the db-sync program (`src/keys.cpp`, `src/operation.cpp`, `src/db.cpp`,
`src/main.cpp`), together with proofs and refutations of the specified
properties.

Modelling conventions:
* C++ scalar payloads become `String` / `Int` / `Nat` / `ℚ`; `double` is
  modelled by `ℚ` (a totally ordered field; IEEE NaN behaviour is outside the
  scope of the properties treated here).
* `std::partial_ordering` becomes the four-valued inductive `POrd`.
* Machine-word overflow never matters for the compared values (they are only
  ever compared, not arithmetically combined), so integers are unbounded.
* Out-of-range vector accesses, which are undefined behaviour in the C++
  source, are totalized: value lookups return `Option` and a missing value is
  treated as greater than every present value.  All positive theorems only
  exercise in-bounds positions; `none` results are used to witness
  out-of-range accesses.
-/

/-- Embedding of `std::partial_ordering`: `less`, `equivalent`, `greater`,
`unordered`. -/
inductive POrd where
  | lt
  | eq
  | gt
  | unordered
deriving DecidableEq, Repr

/-- The mirror image of a comparison outcome (`a <=> b` versus `b <=> a`). -/
def POrd.flip : POrd → POrd
  | .lt => .gt
  | .eq => .eq
  | .gt => .lt
  | .unordered => .unordered

/-- Three-way comparison on a linearly ordered payload type, as produced by
the C++ `operator<=>` on the scalar types used by db-sync. -/
def cmp3 {α : Type} [LinearOrder α] (a b : α) : POrd :=
  if a < b then .lt else if b < a then .gt else .eq

theorem cmp3_eq_iff {α : Type} [LinearOrder α] (a b : α) :
    cmp3 a b = POrd.eq ↔ a = b := by
  unfold cmp3
  rcases lt_trichotomy a b with h | h | h
  · simp [h, ne_of_lt h]
  · simp [h, lt_irrefl]
  · simp [not_lt_of_gt h, h, (ne_of_gt h)]

theorem cmp3_flip {α : Type} [LinearOrder α] (a b : α) :
    cmp3 a b = (cmp3 b a).flip := by
  unfold cmp3
  rcases lt_trichotomy a b with h | h | h
  · simp [h, not_lt_of_gt h, POrd.flip]
  · simp [h, lt_irrefl, POrd.flip]
  · simp [h, not_lt_of_gt h, POrd.flip]

theorem cmp3_lt_iff {α : Type} [LinearOrder α] (a b : α) :
    cmp3 a b = POrd.lt ↔ a < b := by
  unfold cmp3
  rcases lt_trichotomy a b with h | h | h
  · simp [h]
  · simp [h, lt_irrefl]
  · simp [not_lt_of_gt h, h]

theorem cmp3_ne_unordered {α : Type} [LinearOrder α] (a b : α) :
    cmp3 a b ≠ POrd.unordered := by
  unfold cmp3
  split <;> [skip; split] <;> simp

/-- The scalar value of one primary-key cell.  The constructor plays the role
of the `soci::data_type` tag paired with the matching typed vector
(`TableKeys::vI`, `vLL`, `vULL`, `vD`, `vT`, `vS` in `keys.h`).  `dt_string`,
`dt_xml` and `dt_blob` all use the string representation `vS`, exactly as in
the source. -/
inductive Value where
  | vI (n : Int)
  | vLL (n : Int)
  | vULL (n : Nat)
  | vD (d : ℚ)
  | vT (t : Int)
  | vS (s : String)
deriving DecidableEq, Repr

/-- The type tag of a value (the `soci::data_type` discriminant). -/
def Value.tag : Value → Nat
  | .vI _ => 0
  | .vLL _ => 1
  | .vULL _ => 2
  | .vD _ => 3
  | .vT _ => 4
  | .vS _ => 5

/-- Comparison of two scalar cells, dispatching on the type tag as
`TableKeys::compare` does; a tag mismatch is an incomparable pair (in the C++
source it raises `bad_variant_access` / asserts, modelled as `unordered`). -/
def Value.cmp : Value → Value → POrd
  | .vI a, .vI b => cmp3 a b
  | .vLL a, .vLL b => cmp3 a b
  | .vULL a, .vULL b => cmp3 a b
  | .vD a, .vD b => cmp3 a b
  | .vT a, .vT b => cmp3 a b
  | .vS a, .vS b => cmp3 a b
  | _, _ => .unordered

theorem Value.cmp_eq_iff (a b : Value) : Value.cmp a b = POrd.eq ↔ a = b := by
  cases a <;> cases b <;> simp [Value.cmp, cmp3_eq_iff]

theorem Value.cmp_flip (a b : Value) : Value.cmp a b = (Value.cmp b a).flip := by
  cases a <;> cases b <;> simp [Value.cmp, POrd.flip] <;> exact cmp3_flip _ _

theorem Value.cmp_ne_unordered_of_tag (a b : Value) (h : a.tag = b.tag) :
    Value.cmp a b ≠ POrd.unordered := by
  cases a <;> cases b <;> simp_all [Value.tag, Value.cmp] <;> exact cmp3_ne_unordered _ _

theorem Value.cmp_trans_lt (a b c : Value) (h1 : Value.cmp a b = POrd.lt)
    (h2 : Value.cmp b c = POrd.lt) : Value.cmp a c = POrd.lt := by
  cases a <;> cases b <;> cases c <;>
    simp_all [Value.cmp, cmp3_lt_iff] <;> exact lt_trans h1 h2

/-- Comparison of two optional cells.  A present pair compares through
`Value.cmp`; a missing cell (an out-of-range access in the source, which
never happens on the in-bounds positions covered by the theorems) is
totalized as greater than every present cell. -/
def OValue.cmp : Option Value → Option Value → POrd
  | some a, some b => Value.cmp a b
  | none, some _ => .gt
  | some _, none => .lt
  | none, none => .eq

theorem OValue.cmp_opt_eq_iff (a b : Option Value) :
    OValue.cmp a b = POrd.eq ↔ a = b := by
  cases a <;> cases b <;> simp [OValue.cmp, Value.cmp_eq_iff]

theorem OValue.cmp_opt_flip (a b : Option Value) :
    OValue.cmp a b = (OValue.cmp b a).flip := by
  cases a <;> cases b <;> simp [OValue.cmp, POrd.flip]
  exact Value.cmp_flip _ _

theorem OValue.cmp_opt_trans_lt (a b c : Option Value) (h1 : OValue.cmp a b = POrd.lt)
    (h2 : OValue.cmp b c = POrd.lt) : OValue.cmp a c = POrd.lt := by
  cases a <;> cases b <;> cases c <;> simp_all [OValue.cmp]
  exact Value.cmp_trans_lt _ _ _ h1 h2

/-- Compatibility of two optional cells: if both are present their type tags
agree, so that their comparison is decided (never `unordered`). -/
def OValue.Compat (a b : Option Value) : Prop :=
  ∀ v w, a = some v → b = some w → v.tag = w.tag

theorem OValue.cmp_ne_unordered {a b : Option Value} (h : OValue.Compat a b) :
    OValue.cmp a b ≠ POrd.unordered := by
  cases a with
  | none => cases b <;> simp [OValue.cmp]
  | some v =>
    cases b with
    | none => simp [OValue.cmp]
    | some w => exact Value.cmp_ne_unordered_of_tag v w (h v w rfl rfl)

/-- An extracted key row: for each key column, the cell at one physical
position (`none` marks an out-of-range position). -/
abbrev XRow := List (Option Value)

/-- Lexicographic comparison of two extracted rows, short-circuiting on the
first non-equivalent column, exactly as the column loop of
`TableKeys::compare` (keys.cpp:261), whose bound is the number of columns of
the left-hand table: a longer left row against an exhausted right row is the
out-of-bounds access of the source, totalized as `unordered`. -/
def cmpX : XRow → XRow → POrd
  | [], _ => .eq
  | _ :: _, [] => .unordered
  | a :: as, b :: bs =>
    match OValue.cmp a b with
    | .eq => cmpX as bs
    | r => r

theorem cmpX_nil (b : XRow) : cmpX [] b = POrd.eq := by cases b <;> rfl

theorem cmpX_cons (a : Option Value) (as : XRow) (b : Option Value) (bs : XRow) :
    cmpX (a :: as) (b :: bs) =
      match OValue.cmp a b with
      | .eq => cmpX as bs
      | r => r := rfl

theorem cmpX_refl (a : XRow) : cmpX a a = POrd.eq := by
  induction a with
  | nil => rfl
  | cons x xs ih =>
    rw [cmpX_cons]
    have : OValue.cmp x x = POrd.eq := (OValue.cmp_opt_eq_iff x x).mpr rfl
    rw [this]
    exact ih

theorem cmpX_eq_iff {a b : XRow} (h : a.length = b.length) :
    cmpX a b = POrd.eq ↔ a = b := by
  induction a generalizing b with
  | nil =>
    cases b with
    | nil => simp [cmpX_nil]
    | cons y ys => simp at h
  | cons x xs ih =>
    cases b with
    | nil => simp at h
    | cons y ys =>
      rw [cmpX_cons]
      simp only [List.length_cons, Nat.succ.injEq] at h
      rcases ho : OValue.cmp x y with _ | _ | _ | _ <;>
        simp_all [OValue.cmp_opt_eq_iff, ih h]
      · intro hxy
        rw [hxy, (OValue.cmp_opt_eq_iff y y).mpr rfl] at ho
        cases ho
      · intro hxy
        rw [hxy, (OValue.cmp_opt_eq_iff y y).mpr rfl] at ho
        cases ho
      · intro hxy
        rw [hxy, (OValue.cmp_opt_eq_iff y y).mpr rfl] at ho
        cases ho

theorem cmpX_flip {a b : XRow} (h : a.length = b.length) :
    cmpX a b = (cmpX b a).flip := by
  induction a generalizing b with
  | nil =>
    cases b with
    | nil => rfl
    | cons y ys => simp at h
  | cons x xs ih =>
    cases b with
    | nil => simp at h
    | cons y ys =>
      simp only [List.length_cons, Nat.succ.injEq] at h
      rw [cmpX_cons, cmpX_cons, OValue.cmp_opt_flip x y]
      rcases OValue.cmp y x with _ | _ | _ | _ <;> simp [POrd.flip, ih h]

theorem cmpX_trans_lt {a b c : XRow} (h1 : cmpX a b = POrd.lt)
    (h2 : cmpX b c = POrd.lt) : cmpX a c = POrd.lt := by
  induction a generalizing b c with
  | nil => rw [cmpX_nil] at h1; cases h1
  | cons x xs ih =>
    cases b with
    | nil => cases h1
    | cons y ys =>
      cases c with
      | nil => cases h2
      | cons z zs =>
        rw [cmpX_cons] at h1 h2 ⊢
        rcases hxy : OValue.cmp x y with _ | _ | _ | _ <;> rw [hxy] at h1
        · rcases hyz : OValue.cmp y z with _ | _ | _ | _ <;> rw [hyz] at h2
          · rw [OValue.cmp_opt_trans_lt x y z hxy hyz]
          · rw [← (OValue.cmp_opt_eq_iff y z).mp hyz, hxy]
          · cases h2
          · cases h2
        · have hxy' : x = y := (OValue.cmp_opt_eq_iff x y).mp hxy
          subst hxy'
          rcases hyz : OValue.cmp x z with _ | _ | _ | _ <;> rw [hyz] at h2
          · exact ih h1 h2
          · cases h2
          · cases h2
        · cases h1
        · cases h1

/-- Compatibility of two extracted rows: same column count and columnwise
type-tag agreement, the premise under which the source's comparison is total
(invariant M1 of the spec). -/
def RCompat (a b : XRow) : Prop :=
  a.length = b.length ∧ ∀ p ∈ List.zip a b, OValue.Compat p.1 p.2

theorem cmpX_ne_unordered {a b : XRow} (h : RCompat a b) :
    cmpX a b ≠ POrd.unordered := by
  obtain ⟨hlen, hc⟩ := h
  induction a generalizing b with
  | nil => rw [cmpX_nil]; simp
  | cons x xs ih =>
    cases b with
    | nil => simp at hlen
    | cons y ys =>
      simp only [List.length_cons, Nat.succ.injEq] at hlen
      rw [cmpX_cons]
      have hxy : OValue.Compat x y := hc (x, y) (by simp [List.zip_cons_cons])
      have htail : cmpX xs ys ≠ POrd.unordered :=
        ih hlen fun p hp => hc p (by simp [List.zip_cons_cons, hp])
      rcases ho : OValue.cmp x y with _ | _ | _ | _
      · simp
      · simpa using htail
      · simp
      · exact absurd ho (OValue.cmp_ne_unordered hxy)

/-- Under compatibility the comparison is decided three ways. -/
theorem cmpX_total {a b : XRow} (h : RCompat a b) :
    cmpX a b = POrd.lt ∨ cmpX a b = POrd.eq ∨ cmpX a b = POrd.gt := by
  rcases hr : cmpX a b with _ | _ | _ | _ <;> simp
  exact absurd hr (cmpX_ne_unordered h)

theorem cmpX_ne_of_lt {a b : XRow} (h : cmpX a b = POrd.lt) : a ≠ b := by
  intro hab
  rw [hab, cmpX_refl] at h
  cases h

theorem cmpX_gt_flip {a b : XRow} (h : a.length = b.length)
    (hg : cmpX a b = POrd.gt) : cmpX b a = POrd.lt := by
  have := cmpX_flip h
  rw [hg] at this
  rcases hr : cmpX b a with _ | _ | _ | _ <;> rw [hr] at this <;>
    first | rfl | cases this

theorem cmpX_lt_flip {a b : XRow} (h : a.length = b.length)
    (hl : cmpX a b = POrd.lt) : cmpX b a = POrd.gt := by
  have := cmpX_flip h
  rw [hl] at this
  rcases hr : cmpX b a with _ | _ | _ | _ <;> rw [hr] at this <;>
    first | rfl | cases this

theorem cmpX_trans_le_lt {a b c : XRow} (hab : a.length = b.length)
    (h1 : cmpX a b = POrd.lt ∨ cmpX a b = POrd.eq)
    (h2 : cmpX b c = POrd.lt) : cmpX a c = POrd.lt := by
  rcases h1 with h1 | h1
  · exact cmpX_trans_lt h1 h2
  · rw [(cmpX_eq_iff hab).mp h1]
    exact h2

theorem cmpX_trans_lt_le {a b c : XRow} (hbc : b.length = c.length)
    (h1 : cmpX a b = POrd.lt)
    (h2 : cmpX b c = POrd.lt ∨ cmpX b c = POrd.eq) : cmpX a c = POrd.lt := by
  rcases h2 with h2 | h2
  · exact cmpX_trans_lt h1 h2
  · rw [← (cmpX_eq_iff hbc).mp h2]
    exact h1

/-- A `Field` value (db.h; the name `Field` itself is taken by Mathlib): the `soci` type tag, the null indicator, and the
typed payload.  The C++ struct stores the payload in a union next to a string
slot; here every slot is materialized and only the tag-selected slot is ever
read, exactly as in the source.  `dt_date` carries both the epoch and a
formatted string, and only the epoch is compared. -/
inductive DbType where
  | dt_string
  | dt_date
  | dt_double
  | dt_integer
  | dt_long_long
  | dt_unsigned_long_long
  | dt_blob
  | dt_xml
deriving DecidableEq, Repr

structure DbField where
  dType : DbType
  isNull : Bool
  string : String
  epoch : Int
  decimal : ℚ
  integer : Int
  longLong : Int
  uLongLong : Nat
deriving DecidableEq, Repr

/-- `Field::operator<=>` (db.cpp:430): `unordered` unless the type tags
match; with matching tags, nulls sort below non-nulls and two nulls are
equivalent; two non-null fields compare by the payload selected by the
tag. -/
def DbField.cmp (a b : DbField) : POrd :=
  if a.dType = b.dType then
    if a.isNull then
      if b.isNull then .eq else .lt
    else if b.isNull then .gt
    else
      match a.dType with
      | .dt_string | .dt_xml | .dt_blob => cmp3 a.string b.string
      | .dt_date => cmp3 a.epoch b.epoch
      | .dt_double => cmp3 a.decimal b.decimal
      | .dt_integer => cmp3 a.integer b.integer
      | .dt_long_long => cmp3 a.longLong b.longLong
      | .dt_unsigned_long_long => cmp3 a.uLongLong b.uLongLong
  else .unordered

/-- The typed-value comparison used by `Field::operator<=>` for two non-null
fields, selected by the left operand's tag. -/
def DbField.typedCmp (a b : DbField) : POrd :=
  match a.dType with
  | .dt_string | .dt_xml | .dt_blob => cmp3 a.string b.string
  | .dt_date => cmp3 a.epoch b.epoch
  | .dt_double => cmp3 a.decimal b.decimal
  | .dt_integer => cmp3 a.integer b.integer
  | .dt_long_long => cmp3 a.longLong b.longLong
  | .dt_unsigned_long_long => cmp3 a.uLongLong b.uLongLong

/-- Claim C8 — Field three-way comparison: for every two Fields with the same
type tag, a null Field compares less than every non-null Field, two null
Fields compare equivalent, two non-null Fields compare by their typed value,
and the result is unordered iff the two type tags differ. -/
theorem dbsync_c8_field_cmp (a b : DbField) :
    (a.dType = b.dType → a.isNull = true → b.isNull = false →
      DbField.cmp a b = POrd.lt) ∧
    (a.dType = b.dType → a.isNull = false → b.isNull = true →
      DbField.cmp a b = POrd.gt) ∧
    (a.dType = b.dType → a.isNull = true → b.isNull = true →
      DbField.cmp a b = POrd.eq) ∧
    (a.dType = b.dType → a.isNull = false → b.isNull = false →
      DbField.cmp a b = DbField.typedCmp a b) ∧
    (DbField.cmp a b = POrd.unordered ↔ a.dType ≠ b.dType) := by
  refine ⟨?_, ?_, ?_, ?_, ?_⟩
  · intro ht hn hm
    simp [DbField.cmp, ht, hn, hm]
  · intro ht hn hm
    simp [DbField.cmp, ht, hn, hm]
  · intro ht hn hm
    simp [DbField.cmp, ht, hn, hm]
  · intro ht hn hm
    simp [DbField.cmp, DbField.typedCmp, ht, hn, hm]
  · constructor
    · intro hu
      intro ht
      rw [DbField.cmp, if_pos ht] at hu
      rcases hn : a.isNull <;> rcases hm : b.isNull <;> rw [hn, hm] at hu <;>
        simp at hu
      rcases hd : a.dType <;> rw [hd] at hu <;>
        exact cmp3_ne_unordered _ _ hu
    · intro ht
      rw [DbField.cmp, if_neg ht]

/-- Witness for C8 at concrete inputs: a null integer field against a
non-null one of the same type, and a type-tag mismatch. -/
theorem dbsync_c8_field_cmp_witness :
    DbField.cmp ⟨.dt_integer, true, "", 0, 0, 0, 0, 0⟩
        ⟨.dt_integer, false, "", 0, 0, 7, 0, 0⟩ = POrd.lt ∧
    (DbField.cmp ⟨.dt_integer, false, "", 0, 0, 1, 0, 0⟩
        ⟨.dt_date, false, "", 5, 0, 0, 0, 0⟩ = POrd.unordered ↔
      (DbType.dt_integer ≠ DbType.dt_date)) := by
  constructor
  · exact (dbsync_c8_field_cmp ⟨.dt_integer, true, "", 0, 0, 0, 0, 0⟩
      ⟨.dt_integer, false, "", 0, 0, 7, 0, 0⟩).1 rfl rfl rfl
  · exact (dbsync_c8_field_cmp ⟨.dt_integer, false, "", 0, 0, 1, 0, 0⟩
      ⟨.dt_date, false, "", 5, 0, 0, 0, 0⟩).2.2.2.2

/-- A `std::vector<std::string>` iterator: the identity tag of the owning
vector plus an offset.  Iterators of distinct vectors are never equal, which
is how the (formally undefined) C++ pointer comparison between iterators of
two distinct vectors behaves for the distinct `src`/`dest` arguments of
`Operation::checkTables` (main.cpp:200 passes two distinct vectors). -/
structure VecIt where
  container : Nat
  off : Nat
deriving DecidableEq, Repr

/-- `std::find` over a vector with identity `cid`: the position of the first
occurrence, or the end position. -/
def findIt (cid : Nat) (v : List String) (x : String) : VecIt :=
  ⟨cid, v.findIdx (· == x)⟩

/-- The end iterator of a vector with identity `cid`. -/
def endIt (cid : Nat) (v : List String) : VecIt :=
  ⟨cid, v.length⟩

/-- `std::set<std::string>::insert`: ordered, duplicate-free. -/
def setInsert (s : List String) (x : String) : List String :=
  if x ∈ s then s else List.orderedInsert (· ≤ ·) x s

/-- First pass of `Operation::checkTables` (operation.cpp:36-52): build the
processing set from the filter (or from all source tables when the filter is
empty), flagging filter entries that are missing from the source list. -/
def checkTablesPass1 (filter src : List String) : Bool × List String :=
  if filter.isEmpty then
    (true, src.foldl setInsert [])
  else
    filter.foldl
      (fun acc f =>
        if f ∈ src then (acc.1, setInsert acc.2 f) else (false, acc.2))
      (true, [])

/-- `Operation::checkTables` (operation.cpp:36-67).  The second pass is the
verbatim translation of line 57: the iterator returned by searching `dest`
(vector identity 1) is compared against `src.end()` (vector identity 0). -/
def checkTables (filter src dest : List String) : Bool × List String :=
  let p1 := checkTablesPass1 filter src
  if !p1.1 then (false, p1.2)
  else
    let ok2 := p1.2.foldl
      (fun acc f => if findIt 1 dest f = endIt 0 src then false else acc) true
    if !ok2 then (false, p1.2) else (true, p1.2)

/-- Claim C4 (code bug) — evaluation at the failing input: with an empty
filter, source table list `["t"]` and an *empty* target table list,
`checkTables` nevertheless succeeds: the missing-in-target test of
operation.cpp:57 compares the find-in-target iterator against `src.end()`
instead of `dest.end()`, so it can never fire. -/
theorem dbsync_c4_checkTables_missing_target :
    checkTables [] ["t"] [] = (true, ["t"]) := by decide

/-- The outcome of `checkTables` is entirely independent of the target table
list, for every filter, source list, and pair of target lists: the only use
of `dest` is the dead comparison of operation.cpp:57. -/
theorem dbsync_c4_checkTables_ignores_target (filter src dest dest' : List String) :
    checkTables filter src dest = checkTables filter src dest' := by
  unfold checkTables
  have h : ∀ (d : List String) (ts : List String),
      ts.foldl (fun acc f => if findIt 1 d f = endIt 0 src then false else acc) true =
        true := by
    intro d ts
    induction ts with
    | nil => rfl
    | cons t ts ih =>
      have : findIt 1 d t ≠ endIt 0 src := by
        intro he
        exact absurd (congrArg VecIt.container he) (by simp [findIt, endIt])
      simpa [List.foldl_cons, if_neg this] using ih
  simp only [h]

/-- The columnar key store of one table side (`TableKeys`, keys.h):
`count` rows; one value vector per primary-key column (`keys`, with the type
tag carried by the `Value` constructors); the sorted-access permutation
`index`; the per-row `flags` bitmap; and the `sorted` monotone-load flag.
`names` records the column names. -/
structure TableKeys where
  count : Nat
  names : List String
  index : List Nat
  cols : List (List Value)
  flags : List Bool
  sorted : Bool
deriving DecidableEq, Repr

/-- `TableKeys::size()`. -/
def TableKeys.size (k : TableKeys) : Nat := k.count

/-- `TableKeys::size(bool)`: `std::count` over the flags. -/
def TableKeys.sizeFlag (k : TableKeys) (b : Bool) : Nat := k.flags.count b

/-- `TableKeys::setFlag` (`flags.at(index) = value`); all verified call sites
stay in bounds, where `List.set` agrees with `std::vector::at`. -/
def TableKeys.setFlag (k : TableKeys) (i : Nat) (v : Bool) : TableKeys :=
  { k with flags := k.flags.set i v }

/-- `TableKeys::revertFlags` (`flags.flip()`). -/
def TableKeys.revertFlags (k : TableKeys) : TableKeys :=
  { k with flags := k.flags.map (fun b => !b) }

/-- The column loop of `TableKeys::compare` (keys.cpp:261-291): walk the
columns of the left table, short-circuit on the first non-equivalent pair of
cells at physical positions `p1`/`p2`.  A right-hand column list that ends
before the left one is the out-of-bounds access of the source, totalized as
`unordered`. -/
def compareCols : List (List Value) → List (List Value) → Nat → Nat → POrd
  | [], _, _, _ => .eq
  | _ :: _, [], _, _ => .unordered
  | c :: cs, d :: ds, p1, p2 =>
    match OValue.cmp (c.get? p1) (d.get? p2) with
    | .eq => compareCols cs ds p1 p2
    | r => r

/-- `TableKeys::compare(i1, other, i2)` on physical positions. -/
def TableKeys.compare (k : TableKeys) (p1 : Nat) (other : TableKeys) (p2 : Nat) : POrd :=
  compareCols k.cols other.cols p1 p2

/-- The physical row at position `p`: the cell of every column, `none` when
out of range. -/
def TableKeys.xrow (k : TableKeys) (p : Nat) : XRow :=
  k.cols.map (fun c => c.get? p)

theorem compareCols_eq_cmpX (C D : List (List Value)) (p1 p2 : Nat) :
    compareCols C D p1 p2 =
      cmpX (C.map (fun c => c.get? p1)) (D.map (fun c => c.get? p2)) := by
  induction C generalizing D with
  | nil => cases D <;> rfl
  | cons c cs ih =>
    cases D with
    | nil => rfl
    | cons d ds =>
      rw [List.map_cons, List.map_cons, cmpX_cons]
      show (match OValue.cmp (c.get? p1) (d.get? p2) with
        | POrd.eq => compareCols cs ds p1 p2
        | r => r) = _
      rw [ih ds]

theorem TableKeys.compare_eq_cmpX (k : TableKeys) (p1 : Nat) (other : TableKeys)
    (p2 : Nat) : k.compare p1 other p2 = cmpX (k.xrow p1) (other.xrow p2) :=
  compareCols_eq_cmpX k.cols other.cols p1 p2

/-- `TableKeys::less(i1, i2)` (keys.cpp:216): strict comparison of two
physical positions of the same table, with the `i1 == i2` early exit. -/
def TableKeys.lessSelf (k : TableKeys) (i1 i2 : Nat) : Bool :=
  if i1 = i2 then false else decide (k.compare i1 k i2 = POrd.lt)

/-- `TableKeys::less(i1, other, i2)` (keys.cpp:209): strict comparison of a
logical (sorted-order) position of this table against a logical position of
the other, through the two permutations.  All verified call sites keep the
positions in range, where `getD` agrees with `std::vector::operator[]`. -/
def TableKeys.less (k : TableKeys) (i1 : Nat) (other : TableKeys) (i2 : Nat) : Bool :=
  decide (k.compare (k.index.getD i1 0) other (other.index.getD i2 0) = POrd.lt)

/-- The logical (sorted-order) row at position `i`. -/
def TableKeys.lrow (k : TableKeys) (i : Nat) : XRow :=
  k.xrow (k.index.getD i 0)

/-- The scan of `TableKeys::iter` (keys.cpp:30-35):
`while(flags[index] != flag && index < count) index++;`.
The flag is read *before* the bounds test, so the embedding reads
`flags.get? i` first and reports an out-of-range access as `none`. -/
def TableKeys.iterScan (k : TableKeys) (flag : Bool) (i : Nat) : Option Nat :=
  match k.flags.get? i with
  | none => none
  | some b => if b ≠ flag ∧ i < k.count then k.iterScan flag (i + 1) else some i
termination_by k.count - i
decreasing_by exact Nat.sub_lt_sub_left (by omega) (by omega)

/-- `TableKeys::iter(flag)`: scan from position 0. -/
def TableKeys.iter (k : TableKeys) (flag : Bool) : Option Nat :=
  k.iterScan flag 0

/-- `TableKeysIterator::operator++` (keys.h:80-85): `do index++ while(...)`
with the same flag-before-bounds condition. -/
def TableKeys.iterNext (k : TableKeys) (flag : Bool) (i : Nat) : Option Nat :=
  k.iterScan flag (i + 1)

/-- Claim C9 (code bug) — evaluation at the failing inputs.  On a one-row
table whose single flag is `false`, `iter(true)` reads `flags[1]`, one past
the end (the loop tests `flags[index] != flag` before `index < count`); the
same happens to `operator++` when no later row carries the sought flag.  In
the total embedding both scans reach the out-of-range branch (`none`). -/
theorem dbsync_c9_iter_oob :
    TableKeys.iter ⟨1, ["k"], [0], [[Value.vI 5]], [false], true⟩ true = none ∧
    TableKeys.iterNext ⟨1, ["k"], [0], [[Value.vI 5]], [true], true⟩ true 0 = none := by
  constructor
  · show TableKeys.iterScan _ true 0 = none
    rw [TableKeys.iterScan]
    norm_num
    rw [TableKeys.iterScan]
    rfl
  · show TableKeys.iterScan _ true 1 = none
    rw [TableKeys.iterScan]
    rfl

/-- `Db::updatePrepare` (db.cpp:234-246): builds the UPDATE statement.  The
only two element accesses that are not guarded by their loop bounds are
`fields[keysCount]` and `keys[0]`; the embedding makes them total with
`get?` and returns `none` when either is out of range. -/
def Db.updatePrepare (table : String) (keys fields : List String) : Option String :=
  let keysCount := keys.length
  match fields.get? keysCount, keys.get? 0 with
  | some f0, some k0 =>
    some ("UPDATE `" ++ table ++ "` SET `" ++ f0 ++ "`=:v0" ++
      String.join ((List.range' (keysCount + 1) (fields.length - (keysCount + 1))).map
        (fun i => ", `" ++ fields.getD i "" ++ "`=:v" ++ toString i)) ++
      " WHERE `" ++ k0 ++ "`=:k0" ++
      String.join ((List.range' 1 (keysCount - 1)).map
        (fun i => " AND `" ++ keys.getD i "" ++ "`=:k" ++ toString i)))
  | _, _ => none

/-- `TableRow::rotate` (operation.cpp:494-499): `std::rotate` moving the
first `moveCount` fields to the end. -/
def TableRow.rotate {α : Type} (fields : List α) (moveCount : Nat) : List α :=
  fields.drop moveCount ++ fields.take moveCount

/-- The assertions guarding `TableRow::rotate`:
`0 < moveCount ∧ moveCount < fields.size()`. -/
def TableRow.rotatePre (moveCount n : Nat) : Prop := 0 < moveCount ∧ moveCount < n

/-- Claim C10 (counterexample) — for a table in which every column belongs to
the primary key (here one column `k`, with `keysCount = 1 =` column count),
the access `fields[keysCount]` of `updatePrepare` is out of bounds and the
precondition of `rotate(keysCount)` fails, contrary to the claim. -/
theorem dbsync_c10_counterexample :
    Db.updatePrepare "t" ["k"] ["k"] = none ∧ ¬ TableRow.rotatePre 1 1 := by
  constructor
  · rfl
  · intro h
    exact absurd h.2 (lt_irrefl 1)

/-- Claim C10 (amended) — for every table metadata with at least one non-key
column (`0 < keysCount < column count`), the access `fields[keysCount]` of
`updatePrepare` is in bounds (the built statement exists) and the
precondition of `TableRow::rotate(keysCount)` holds for the full rows of
that table. -/
theorem dbsync_c10_update_access (table : String) (keys fields : List String)
    (hk : keys ≠ []) (hlt : keys.length < fields.length) :
    (Db.updatePrepare table keys fields).isSome ∧
      TableRow.rotatePre keys.length fields.length := by
  constructor
  · have h0 : keys.get? 0 = some (keys.headI) := by
      cases keys with
      | nil => exact absurd rfl hk
      | cons x xs => rfl
    have hf : ∃ v, fields.get? keys.length = some v := by
      rw [List.get?_eq_getElem?, List.getElem?_eq_getElem hlt]
      exact ⟨_, rfl⟩
    obtain ⟨v, hv⟩ := hf
    rw [Db.updatePrepare, hv, h0]
    rfl
  · exact ⟨List.length_pos.mpr hk, hlt⟩

/-- Witness for the amended C10 at a concrete metadata: primary key `k`,
columns `k, v`. -/
theorem dbsync_c10_update_access_witness :
    (Db.updatePrepare "t" ["k"] ["k", "v"]).isSome ∧
      TableRow.rotatePre 1 2 :=
  dbsync_c10_update_access "t" ["k"] ["k", "v"] (by decide) (by decide)

/-- The main merge loop of `Operation::compareKeys` (operation.cpp:399-408):
two cursors over the sorted key streams; `less` on sorted-order positions,
flag-and-advance.  Returns the two key tables and the cursor positions at
loop exit. -/
def compareKeysLoop (src dest : TableKeys) (si di : Nat) :
    TableKeys × TableKeys × Nat × Nat :=
  if h : si < src.size ∧ di < dest.size then
    if src.less si dest di then
      compareKeysLoop (src.setFlag si true) dest (si + 1) di
    else if dest.less di src si then
      compareKeysLoop src (dest.setFlag di true) si (di + 1)
    else
      compareKeysLoop src dest (si + 1) (di + 1)
  else (src, dest, si, di)
termination_by (src.size - si) + (dest.size - di)
decreasing_by
  all_goals simp only [TableKeys.size, TableKeys.setFlag] at *
  all_goals omega

/-- The two drain loops after the merge (operation.cpp:409-412): flag every
remaining position of an unexhausted side. -/
def drainFlags (k : TableKeys) (i : Nat) : TableKeys :=
  if i < k.size then drainFlags (k.setFlag i true) (i + 1) else k
termination_by k.size - i
decreasing_by
  simp only [TableKeys.size, TableKeys.setFlag] at *
  omega

/-- `Operation::compareKeys` (operation.cpp:395-436): merge, drain both
sides, then derive the counts: `onlySrc` and `onlyDest` by popcount of the
flags, `common := src.size() - onlySrc`. -/
def Operation.compareKeys (src dest : TableKeys) :
    (TableKeys × TableKeys) × Nat × Nat × Nat :=
  let s := compareKeysLoop src dest 0 0
  let src' := drainFlags s.1 s.2.2.1
  let dest' := drainFlags s.2.1 s.2.2.2
  let onlySrc := src'.sizeFlag true
  let common := src'.size - onlySrc
  let onlyDest := dest'.sizeFlag true
  ((src', dest'), onlySrc, common, onlyDest)

/-- The rows carrying flag value `b`, in sorted order: the keys visited by a
`TableKeysIterator` over that flag (idealized as in-bounds iteration; the
iterator's out-of-range flag read is treated in C9). -/
def TableKeys.flaggedRows (k : TableKeys) (b : Bool) : List XRow :=
  ((List.range k.count).filter (fun i => k.flags.getD i false = b)).map k.lrow

/-- `enum Mode` (operation.h). -/
inductive Mode where
  | Copy
  | Sync
deriving DecidableEq, Repr

/-- Observable database events of one per-table run.  Key loads and bulk
selects are the read path; INSERT / UPDATE / DELETE statements and the
transaction brackets are the write path. -/
inductive Ev where
  | keyLoad (fromSource : Bool) (n : Nat)
  | sel (fromSource : Bool) (ks : List XRow)
  | txBegin
  | txCommit
  | ins (r : List Value)
  | upd (r : List Value)
  | del (kt : XRow)
deriving DecidableEq, Repr

/-- INSERT, UPDATE or DELETE statements. -/
def Ev.isWrite : Ev → Bool
  | .ins _ => true
  | .upd _ => true
  | .del _ => true
  | _ => false

/-- Key loads and bulk selects. -/
def Ev.isRead : Ev → Bool
  | .keyLoad _ _ => true
  | .sel _ _ => true
  | _ => false

def readsOf (t : List Ev) : List Ev := t.filter Ev.isRead

def writesOf (t : List Ev) : List Ev := t.filter Ev.isWrite

/-- The target session state: committed mutations and the mutations pending
inside the current transaction (`soci::transaction`: destruction without
commit rolls the pending work back). -/
structure TargetDb where
  committed : List Ev
  pending : List Ev
deriving DecidableEq, Repr

def dbStep (s : TargetDb) : Ev → TargetDb
  | .txBegin => { s with pending := [] }
  | .txCommit => ⟨s.committed ++ s.pending, []⟩
  | e => if e.isWrite then { s with pending := s.pending ++ [e] } else s

def dbApply (s : TargetDb) (t : List Ev) : TargetDb := t.foldl dbStep s

/-- Bulk windows over a work list: repeatedly `min(remaining, bulk)` items,
as the chunked loops of operation.cpp compute `bulk = std::min(total - count,
config.modifyBulk)`.  (A zero bulk, rejected by the CLI, would loop forever
in the source; here it yields no windows.) -/
def chunks {α : Type} (bulk : Nat) : List α → List (List α)
  | [] => []
  | k :: ks =>
    if bulk = 0 then []
    else (k :: ks).take bulk :: chunks bulk ((k :: ks).drop bulk)
termination_by l => l.length
decreasing_by
  simp only [List.length_drop, List.length_cons]
  omega

/-- The per-row mutation loop shared by the add and update phases
(operation.cpp:221-232 and 332-343): in a dry run the statement execution is
short-circuited away; otherwise the statement is executed and a failure
aborts unless `noFail`. -/
def writeLoop (dryRun noFail : Bool) (wOk : List Value → Bool)
    (mk : List Value → Ev) : List (List Value) → Bool × List Ev
  | [] => (true, [])
  | r :: rs =>
    if dryRun then writeLoop dryRun noFail wOk mk rs
    else if wOk r then
      let p := writeLoop dryRun noFail wOk mk rs
      (p.1, mk r :: p.2)
    else if noFail then
      let p := writeLoop dryRun noFail wOk mk rs
      (p.1, mk r :: p.2)
    else (false, [mk r])

/-- One add-phase chunk sequence (operation.cpp:208-236): bulk-select the
chunk's full rows from the source, then insert them into the target inside
one transaction; `dbRw += srcRecord.size()` only at the end of a completed
chunk. -/
def addChunks (dryRun noFail : Bool) (fetch : List XRow → List (List Value))
    (wOk : List Value → Bool) : List (List XRow) → Bool × List Ev × Nat
  | [] => (true, [], 0)
  | c :: cs =>
    let rows := fetch c
    let p := writeLoop dryRun noFail wOk Ev.ins rows
    if p.1 then
      let q := addChunks dryRun noFail fetch wOk cs
      (q.1, (Ev.sel true c :: Ev.txBegin :: p.2) ++ Ev.txCommit :: q.2.1,
        rows.length + q.2.2)
    else (false, Ev.sel true c :: Ev.txBegin :: p.2, 0)

/-- `Operation::executeAdd` (operation.cpp:198-239) over the source-only keys
in sorted order. -/
def executeAdd (dryRun noFail : Bool) (mb : Nat)
    (fetch : List XRow → List (List Value)) (wOk : List Value → Bool)
    (keys : List XRow) : Bool × List Ev × Nat :=
  if keys.length = 0 then (true, [], 0)
  else addChunks dryRun noFail fetch wOk (chunks mb keys)

/-- The MD5 compare windows of `Operation::executeUpdate`
(operation.cpp:254-301): the loop recomputes
`bulk = std::min(total - count, config.modifyBulk)` (line 256) — the
`compareBulk` parameter is used only for the initial buffer size hint (line
246) and never reaches the window computation.  Each window issues one
source and one target MD5 bulk select and contributes
`srcCompare.size() + destCompare.size()` to `dbRw`. -/
def compareWindows (compareBulk mb : Nat) (common : List XRow) : List (List XRow) :=
  let _ := compareBulk
  chunks mb common

/-- One update-phase chunk sequence (operation.cpp:316-347): bulk-select the
chunk from the source (`dbRw += srcRecord.size()`, line 327), update the
target rows in one transaction, and count `dbRw += srcRecord.size()` again
after the commit (line 346). -/
def updChunks (dryRun noFail : Bool) (fetch : List XRow → List (List Value))
    (wOk : List Value → Bool) : List (List XRow) → Bool × List Ev × Nat
  | [] => (true, [], 0)
  | c :: cs =>
    let rows := fetch c
    let p := writeLoop dryRun noFail wOk Ev.upd rows
    if p.1 then
      let q := updChunks dryRun noFail fetch wOk cs
      (q.1, (Ev.sel true c :: Ev.txBegin :: p.2) ++ Ev.txCommit :: q.2.1,
        rows.length + rows.length + q.2.2)
    else (false, Ev.sel true c :: Ev.txBegin :: p.2, rows.length)

/-- `Operation::executeUpdate` (operation.cpp:241-349): the MD5 compare pass
over the common keys (re-setting the flags to "md5 differs"), then the
update pass over the keys still flagged. -/
def executeUpdate (dryRun noFail : Bool) (compareBulk mb : Nat)
    (fetch : List XRow → List (List Value)) (md5Eq : XRow → Bool)
    (wOk : List Value → Bool) (common : List XRow) : Bool × List Ev × Nat :=
  if common.length = 0 then (true, [], 0)
  else
    let windows := compareWindows compareBulk mb common
    let cmpEvs := windows.map (fun w => [Ev.sel true w, Ev.sel false w])
    let cmpRw := (windows.map (fun w => w.length + w.length)).sum
    let need := common.filter (fun kk => !(md5Eq kk))
    let u := if need.length = 0 then (true, [], 0)
      else updChunks dryRun noFail fetch wOk (chunks mb need)
    (u.1, cmpEvs.flatten ++ u.2.1, cmpRw + u.2.2)

/-- The per-key loop of `Operation::executeDelete` (operation.cpp:362-375):
the DELETE is short-circuited away in a dry run; `dbRw++` for each key that
does not abort the loop. -/
def delLoop (dryRun noFail : Bool) (wOk : XRow → Bool) :
    List XRow → Bool × List Ev × Nat
  | [] => (true, [], 0)
  | kt :: ks =>
    if dryRun then
      let p := delLoop dryRun noFail wOk ks
      (p.1, p.2.1, p.2.2 + 1)
    else if wOk kt then
      let p := delLoop dryRun noFail wOk ks
      (p.1, Ev.del kt :: p.2.1, p.2.2 + 1)
    else if noFail then
      let p := delLoop dryRun noFail wOk ks
      (p.1, Ev.del kt :: p.2.1, p.2.2 + 1)
    else (false, [Ev.del kt], 0)

/-- `Operation::executeDelete` (operation.cpp:352-379): one transaction
around all target-only keys; the commit is reached unless a failure aborts
with `noFail` unset. -/
def executeDelete (dryRun noFail : Bool) (wOk : XRow → Bool)
    (keys : List XRow) : Bool × List Ev × Nat :=
  if keys.length = 0 then (true, [], 0)
  else
    let p := delLoop dryRun noFail wOk keys
    (p.1, Ev.txBegin :: p.2.1 ++ (if p.1 then [Ev.txCommit] else []), p.2.2)

/-- `Operation::execute(table)` (operation.cpp:156-196): the two key loads
(each adding its size to `dbRw`), the diff classification via
`Operation::compareKeys` (which takes no dry-run input), then the add phase,
the update phase when enabled, and the delete phase in Sync mode. -/
def executeTable (mode : Mode) (update dryRun noFail : Bool)
    (compareBulk mb : Nat) (fetch : List XRow → List (List Value))
    (md5Eq : XRow → Bool) (wOkIns wOkUpd : List Value → Bool)
    (wOkDel : XRow → Bool) (srcKeys destKeys : TableKeys) :
    Bool × List Ev × Nat :=
  let loadEvs := [Ev.keyLoad true srcKeys.size, Ev.keyLoad false destKeys.size]
  let rwLoad := srcKeys.size + destKeys.size
  let d := Operation.compareKeys srcKeys destKeys
  let a := executeAdd dryRun noFail mb fetch wOkIns (d.1.1.flaggedRows true)
  if !a.1 then (false, loadEvs ++ a.2.1, rwLoad + a.2.2)
  else
    let u := if update then
        executeUpdate dryRun noFail compareBulk mb fetch md5Eq wOkUpd
          (d.1.1.revertFlags.flaggedRows true)
      else (true, [], 0)
    if !u.1 then (false, loadEvs ++ a.2.1 ++ u.2.1, rwLoad + a.2.2 + u.2.2)
    else
      let e := if mode = Mode.Sync then
          executeDelete dryRun noFail wOkDel (d.1.2.flaggedRows true)
        else (true, [], 0)
      (e.1, loadEvs ++ a.2.1 ++ u.2.1 ++ e.2.1, rwLoad + a.2.2 + u.2.2 + e.2.2)

/-- The table loop of `Operation::execute` (operation.cpp:128-154):
`while((config.dryRun || ok) && iter != tables.end())`; tables with no
columns are logged and skipped, any other table updates `ok` with its
per-table result.  Returns the tables actually executed and the final
`ok`. -/
def executeTables (dryRun : Bool) (emptyTable : String → Bool)
    (runTable : String → Bool) : List String → Bool → List String × Bool
  | [], ok => ([], ok)
  | t :: rest, ok =>
    if dryRun || ok then
      if emptyTable t then executeTables dryRun emptyTable runTable rest ok
      else
        let ok' := runTable t
        let p := executeTables dryRun emptyTable runTable rest ok'
        (t :: p.1, p.2)
    else ([], ok)

theorem writeLoop_dry (nf : Bool) (w : List Value → Bool) (mk : List Value → Ev)
    (rows : List (List Value)) : writeLoop true nf w mk rows = (true, []) := by
  induction rows with
  | nil => rfl
  | cons r rs ih => simpa [writeLoop] using ih

theorem writeLoop_allOk (nf : Bool) (mk : List Value → Ev)
    (rows : List (List Value)) :
    writeLoop false nf (fun _ => true) mk rows = (true, rows.map mk) := by
  induction rows with
  | nil => rfl
  | cons r rs ih => simp [writeLoop, ih]

theorem delLoop_dry (nf : Bool) (w : XRow → Bool) (ks : List XRow) :
    delLoop true nf w ks = (true, [], ks.length) := by
  induction ks with
  | nil => rfl
  | cons kt ks ih => simp [delLoop, ih]

theorem delLoop_allOk (nf : Bool) (ks : List XRow) :
    delLoop false nf (fun _ => true) ks = (true, ks.map Ev.del, ks.length) := by
  induction ks with
  | nil => rfl
  | cons kt ks ih => simp [delLoop, ih]

theorem readsOf_append (s t : List Ev) :
    readsOf (s ++ t) = readsOf s ++ readsOf t := by
  simp [readsOf, List.filter_append]

theorem writesOf_append (s t : List Ev) :
    writesOf (s ++ t) = writesOf s ++ writesOf t := by
  simp [writesOf, List.filter_append]

theorem readsOf_map_ins (rows : List (List Value)) :
    readsOf (rows.map Ev.ins) = [] := by
  induction rows with
  | nil => rfl
  | cons r rs ih => simp [readsOf, Ev.isRead, ih]

theorem readsOf_map_upd (rows : List (List Value)) :
    readsOf (rows.map Ev.upd) = [] := by
  induction rows with
  | nil => rfl
  | cons r rs ih => simp [readsOf, Ev.isRead, ih]

theorem readsOf_map_del (ks : List XRow) :
    readsOf (ks.map Ev.del) = [] := by
  induction ks with
  | nil => rfl
  | cons kt ks ih => simp [readsOf, Ev.isRead, ih]

theorem addChunks_dry (nf : Bool) (f : List XRow → List (List Value))
    (w : List Value → Bool) (cs : List (List XRow)) :
    (addChunks true nf f w cs).1 = true ∧
      writesOf (addChunks true nf f w cs).2.1 = [] ∧
      readsOf (addChunks true nf f w cs).2.1 = cs.map (Ev.sel true) := by
  induction cs with
  | nil => exact ⟨rfl, rfl, rfl⟩
  | cons c cs ih =>
    obtain ⟨ih1, ih2, ih3⟩ := ih
    simp [addChunks, writeLoop_dry, ih1, ih2, ih3, readsOf, writesOf,
      Ev.isRead, Ev.isWrite] at *
    exact ⟨ih2, ih3⟩

theorem addChunks_allOk (nf : Bool) (f : List XRow → List (List Value))
    (cs : List (List XRow)) :
    (addChunks false nf f (fun _ => true) cs).1 = true ∧
      readsOf (addChunks false nf f (fun _ => true) cs).2.1 =
        cs.map (Ev.sel true) := by
  induction cs with
  | nil => exact ⟨rfl, rfl⟩
  | cons c cs ih =>
    obtain ⟨ih1, ih2⟩ := ih
    simp [addChunks, writeLoop_allOk, ih1, ih2, readsOf, Ev.isRead,
      List.filter_append, readsOf_map_ins] at *
    rw [show (List.filter Ev.isRead (List.map Ev.ins (f c))) = [] from
      readsOf_map_ins (f c)]
    simpa using ih2

theorem updChunks_dry (nf : Bool) (f : List XRow → List (List Value))
    (w : List Value → Bool) (cs : List (List XRow)) :
    (updChunks true nf f w cs).1 = true ∧
      writesOf (updChunks true nf f w cs).2.1 = [] ∧
      readsOf (updChunks true nf f w cs).2.1 = cs.map (Ev.sel true) := by
  induction cs with
  | nil => exact ⟨rfl, rfl, rfl⟩
  | cons c cs ih =>
    obtain ⟨ih1, ih2, ih3⟩ := ih
    simp [updChunks, writeLoop_dry, ih1, ih2, ih3, readsOf, writesOf,
      Ev.isRead, Ev.isWrite] at *
    exact ⟨ih2, ih3⟩

theorem updChunks_allOk (nf : Bool) (f : List XRow → List (List Value))
    (cs : List (List XRow)) :
    (updChunks false nf f (fun _ => true) cs).1 = true ∧
      readsOf (updChunks false nf f (fun _ => true) cs).2.1 =
        cs.map (Ev.sel true) := by
  induction cs with
  | nil => exact ⟨rfl, rfl⟩
  | cons c cs ih =>
    obtain ⟨ih1, ih2⟩ := ih
    simp [updChunks, writeLoop_allOk, ih1, ih2, readsOf, Ev.isRead,
      List.filter_append] at *
    rw [show (List.filter Ev.isRead (List.map Ev.upd (f c))) = [] from
      readsOf_map_upd (f c)]
    simpa using ih2

theorem writesOf_selPairs (ws : List (List XRow)) :
    writesOf (List.flatten (ws.map (fun w => [Ev.sel true w, Ev.sel false w]))) = [] := by
  induction ws with
  | nil => rfl
  | cons wnd ws ih =>
    simp only [List.map_cons, List.flatten_cons, writesOf_append]
    rw [show writesOf [Ev.sel true wnd, Ev.sel false wnd] = [] from rfl]
    simpa [writesOf] using ih

theorem executeUpdate_dry (nf : Bool) (cb mb : Nat)
    (f : List XRow → List (List Value)) (m : XRow → Bool)
    (w : List Value → Bool) (common : List XRow) :
    (executeUpdate true nf cb mb f m w common).1 = true ∧
      writesOf (executeUpdate true nf cb mb f m w common).2.1 = [] ∧
      readsOf (executeUpdate true nf cb mb f m w common).2.1 =
        readsOf (executeUpdate false nf cb mb f m (fun _ => true) common).2.1 := by
  unfold executeUpdate
  rcases hc : common.length with _ | n
  · refine ⟨?_, ?_, ?_⟩ <;> simp [writesOf, readsOf]
  · rw [if_neg (by omega), if_neg (by omega)]
    simp only
    rcases hn : (common.filter (fun kk => !(m kk))).length with _ | n2
    · rw [if_pos rfl, if_pos rfl]
      refine ⟨rfl, ?_, rfl⟩
      simpa [writesOf] using
        writesOf_selPairs (compareWindows cb mb common)
    · rw [if_neg (by omega), if_neg (by omega)]
      obtain ⟨hd1, hd2, hd3⟩ := updChunks_dry nf f w
        (chunks mb (common.filter (fun kk => !(m kk))))
      obtain ⟨ha1, ha2⟩ := updChunks_allOk nf f
        (chunks mb (common.filter (fun kk => !(m kk))))
      refine ⟨hd1, ?_, ?_⟩
      · rw [writesOf_append, hd2]
        simpa [writesOf] using
          writesOf_selPairs (compareWindows cb mb common)
      · rw [readsOf_append, readsOf_append, hd3, ha2]

theorem executeDelete_dry (nf : Bool) (w : XRow → Bool) (ks : List XRow) :
    (executeDelete true nf w ks).1 = true ∧
      writesOf (executeDelete true nf w ks).2.1 = [] ∧
      readsOf (executeDelete true nf w ks).2.1 =
        readsOf (executeDelete false nf (fun _ => true) ks).2.1 := by
  unfold executeDelete
  rcases hc : ks.length with _ | n
  · refine ⟨?_, ?_, ?_⟩ <;> simp [writesOf, readsOf]
  · rw [if_neg (by omega), if_neg (by omega)]
    rw [delLoop_dry, delLoop_allOk]
    refine ⟨rfl, ?_, ?_⟩
    · simp [writesOf, Ev.isWrite]
    · have : List.filter Ev.isRead (ks.map Ev.del) = [] := by
        simpa [readsOf] using readsOf_map_del ks
      simp [readsOf, List.filter_cons, List.filter_append, Ev.isRead, this]

theorem dbApply_no_writes (c0 : List Ev) (evs : List Ev)
    (h : writesOf evs = []) : dbApply ⟨c0, []⟩ evs = ⟨c0, []⟩ := by
  induction evs with
  | nil => rfl
  | cons e es ih =>
    have he : e.isWrite = false := by
      by_contra hw
      have : e ∈ writesOf (e :: es) := by
        simp [writesOf, List.filter_cons, eq_true_of_ne_false hw]
      rw [h] at this
      cases this
    have hes : writesOf es = [] := by
      have := h
      simp [writesOf, List.filter_cons] at this
      rcases hcase : e.isWrite with _ | _
      · rw [hcase] at this
        simpa [writesOf] using this
      · rw [hcase] at he
        cases he
    have hstep : dbStep ⟨c0, []⟩ e = ⟨c0, []⟩ := by
      cases e <;> simp_all [dbStep, Ev.isWrite]
    show dbApply (dbStep ⟨c0, []⟩ e) es = _
    rw [hstep]
    exact ih hes

theorem writesOf_keyLoads (a b : Bool) (n m : Nat) :
    writesOf [Ev.keyLoad a n, Ev.keyLoad b m] = [] := rfl

theorem readsOf_keyLoads (a b : Bool) (n m : Nat) :
    readsOf [Ev.keyLoad a n, Ev.keyLoad b m] =
      [Ev.keyLoad a n, Ev.keyLoad b m] := rfl

theorem writesOf_keyLoad_cons (a : Bool) (n : Nat) (evs : List Ev) :
    writesOf (Ev.keyLoad a n :: evs) = writesOf evs := by
  simp [writesOf, List.filter_cons, Ev.isWrite]

theorem readsOf_keyLoad_cons (a : Bool) (n : Nat) (evs : List Ev) :
    readsOf (Ev.keyLoad a n :: evs) = Ev.keyLoad a n :: readsOf evs := by
  simp [readsOf, List.filter_cons, Ev.isRead]

theorem writesOf_nil : writesOf [] = [] := rfl

theorem readsOf_nil : readsOf [] = [] := rfl

theorem executeAdd_dry (nf nf' : Bool) (mb : Nat)
    (f : List XRow → List (List Value)) (w : List Value → Bool)
    (keys : List XRow) :
    (executeAdd true nf mb f w keys).1 = true ∧
      writesOf (executeAdd true nf mb f w keys).2.1 = [] ∧
      readsOf (executeAdd true nf mb f w keys).2.1 =
        readsOf (executeAdd false nf' mb f (fun _ => true) keys).2.1 := by
  unfold executeAdd
  rcases hc : keys.length with _ | n
  · refine ⟨?_, ?_, ?_⟩ <;> simp [writesOf, readsOf]
  · rw [if_neg (by omega), if_neg (by omega)]
    obtain ⟨hd1, hd2, hd3⟩ := addChunks_dry nf f w (chunks mb keys)
    obtain ⟨ha1, ha2⟩ := addChunks_allOk nf' f (chunks mb keys)
    exact ⟨hd1, hd2, by rw [hd3, ha2]⟩

theorem executeAdd_allOk (nf : Bool) (mb : Nat)
    (f : List XRow → List (List Value)) (keys : List XRow) :
    (executeAdd false nf mb f (fun _ => true) keys).1 = true := by
  unfold executeAdd
  rcases hc : keys.length with _ | n
  · simp
  · rw [if_neg (by omega)]
    exact (addChunks_allOk nf f (chunks mb keys)).1

theorem executeUpdate_allOk (nf : Bool) (cb mb : Nat)
    (f : List XRow → List (List Value)) (m : XRow → Bool)
    (common : List XRow) :
    (executeUpdate false nf cb mb f m (fun _ => true) common).1 = true := by
  unfold executeUpdate
  rcases hc : common.length with _ | n
  · simp
  · rw [if_neg (by omega)]
    simp only
    rcases hn : (common.filter (fun kk => !(m kk))).length with _ | n2
    · rw [if_pos rfl]
    · rw [if_neg (by omega)]
      exact (updChunks_allOk nf f (chunks mb (common.filter (fun kk => !(m kk))))).1

theorem executeDelete_allOk (nf : Bool) (ks : List XRow) :
    (executeDelete false nf (fun _ => true) ks).1 = true := by
  unfold executeDelete
  rcases hc : ks.length with _ | n
  · simp
  · rw [if_neg (by omega)]
    rw [delLoop_allOk]

/-- Claim C3 — when dryRun is true the add, update and delete phases execute
no INSERT, UPDATE or DELETE against the target for any table and any input
data; the key loads, the diff classification (`Operation.compareKeys`, which
takes no dry-run input) and the bulk selects run exactly as in a (successful)
non-dry run; and applying the dry run's event trace to any target session
state leaves the committed contents unchanged. -/
theorem dbsync_c3_dry_run (mode : Mode) (update noFail noFail' : Bool)
    (cb mb : Nat) (fetch : List XRow → List (List Value)) (md5Eq : XRow → Bool)
    (wOkIns wOkUpd : List Value → Bool) (wOkDel : XRow → Bool)
    (srcKeys destKeys : TableKeys) (c0 : List Ev) :
    writesOf (executeTable mode update true noFail cb mb fetch md5Eq wOkIns
        wOkUpd wOkDel srcKeys destKeys).2.1 = [] ∧
      readsOf (executeTable mode update true noFail cb mb fetch md5Eq wOkIns
          wOkUpd wOkDel srcKeys destKeys).2.1 =
        readsOf (executeTable mode update false noFail' cb mb fetch md5Eq
            (fun _ => true) (fun _ => true) (fun _ => true) srcKeys destKeys).2.1 ∧
      (dbApply ⟨c0, []⟩ (executeTable mode update true noFail cb mb fetch md5Eq
          wOkIns wOkUpd wOkDel srcKeys destKeys).2.1).committed = c0 := by
  have key : writesOf (executeTable mode update true noFail cb mb fetch md5Eq
        wOkIns wOkUpd wOkDel srcKeys destKeys).2.1 = [] ∧
      readsOf (executeTable mode update true noFail cb mb fetch md5Eq wOkIns
          wOkUpd wOkDel srcKeys destKeys).2.1 =
        readsOf (executeTable mode update false noFail' cb mb fetch md5Eq
            (fun _ => true) (fun _ => true) (fun _ => true) srcKeys destKeys).2.1 := by
    unfold executeTable
    dsimp only
    obtain ⟨hA1, hA2, hA3⟩ := executeAdd_dry noFail noFail' mb fetch wOkIns
      ((Operation.compareKeys srcKeys destKeys).1.1.flaggedRows true)
    have hA1' := executeAdd_allOk noFail' mb fetch
      ((Operation.compareKeys srcKeys destKeys).1.1.flaggedRows true)
    obtain ⟨hU1, hU2, hU3⟩ := executeUpdate_dry noFail cb mb fetch md5Eq wOkUpd
      ((Operation.compareKeys srcKeys destKeys).1.1.revertFlags.flaggedRows true)
    have hU1' := executeUpdate_allOk noFail' cb mb fetch md5Eq
      ((Operation.compareKeys srcKeys destKeys).1.1.revertFlags.flaggedRows true)
    obtain ⟨hD1, hD2, hD3⟩ := executeDelete_dry noFail wOkDel
      ((Operation.compareKeys srcKeys destKeys).1.2.flaggedRows true)
    have hD1' := executeDelete_allOk noFail'
      ((Operation.compareKeys srcKeys destKeys).1.2.flaggedRows true)
    have hD3' : readsOf (executeDelete false noFail (fun _ => true)
          ((Operation.compareKeys srcKeys destKeys).1.2.flaggedRows true)).2.1 =
        readsOf (executeDelete false noFail' (fun _ => true)
          ((Operation.compareKeys srcKeys destKeys).1.2.flaggedRows true)).2.1 := by
      unfold executeDelete
      rcases hc : ((Operation.compareKeys srcKeys destKeys).1.2.flaggedRows
          true).length with _ | n
      · rfl
      · rw [if_neg (by omega), if_neg (by omega), delLoop_allOk, delLoop_allOk]
    have hU3' : readsOf (executeUpdate false noFail cb mb fetch md5Eq
          (fun _ => true)
          ((Operation.compareKeys srcKeys destKeys).1.1.revertFlags.flaggedRows true)).2.1 =
        readsOf (executeUpdate false noFail' cb mb fetch md5Eq (fun _ => true)
          ((Operation.compareKeys srcKeys destKeys).1.1.revertFlags.flaggedRows true)).2.1 := by
      unfold executeUpdate
      rcases hc : ((Operation.compareKeys srcKeys
          destKeys).1.1.revertFlags.flaggedRows true).length with _ | n
      · rfl
      · rw [if_neg (by omega), if_neg (by omega)]
        simp only
        rcases hn : (((Operation.compareKeys srcKeys
            destKeys).1.1.revertFlags.flaggedRows true).filter
            (fun kk => !(md5Eq kk))).length with _ | n2
        · rw [if_pos rfl, if_pos rfl]
        · rw [if_neg (by omega), if_neg (by omega), readsOf_append,
            readsOf_append, (updChunks_allOk noFail fetch _).2,
            (updChunks_allOk noFail' fetch _).2]
    rcases update with _ | _ <;> rcases mode with _ | _ <;>
      refine ⟨?_, ?_⟩ <;>
      simp [hA1, hA1', hU1, hU1', hD1, hD1', writesOf_append, readsOf_append,
        writesOf_keyLoad_cons, readsOf_keyLoad_cons, writesOf_nil, readsOf_nil,
        hA2, hU2, hD2, hA3, hU3.trans hU3', hD3.trans hD3']
  refine ⟨key.1, key.2, ?_⟩
  rw [dbApply_no_writes c0 _ key.1]

/-- Claim C5 (code bug) — evaluation at the failing input: with 5 common
keys, `modifyBulk = 3` and *any* `compareBulk`, the MD5 content-compare
fetches windows of 3 and 2 keys (`min(remaining, modifyBulk)`, recomputed at
operation.cpp:256), never the `min(remaining, compareBulk)` windows the claim
and the spec require (for `compareBulk = 2` those would be 2, 2, 1): the
compare phase of `executeUpdate` issues exactly two source/target select
pairs of sizes 3 and 2, independently of `compareBulk`. -/
theorem dbsync_c5_compare_window_sizes (compareBulk : Nat) :
    compareWindows compareBulk 3
        [[some (Value.vI 1)], [some (Value.vI 2)], [some (Value.vI 3)],
          [some (Value.vI 4)], [some (Value.vI 5)]] =
      [[[some (Value.vI 1)], [some (Value.vI 2)], [some (Value.vI 3)]],
        [[some (Value.vI 4)], [some (Value.vI 5)]]] ∧
    (executeUpdate false false compareBulk 3 (fun _ => [])
        (fun _ => true) (fun _ => true)
        [[some (Value.vI 1)], [some (Value.vI 2)], [some (Value.vI 3)],
          [some (Value.vI 4)], [some (Value.vI 5)]]).2.1 =
      [Ev.sel true [[some (Value.vI 1)], [some (Value.vI 2)], [some (Value.vI 3)]],
        Ev.sel false [[some (Value.vI 1)], [some (Value.vI 2)], [some (Value.vI 3)]],
        Ev.sel true [[some (Value.vI 4)], [some (Value.vI 5)]],
        Ev.sel false [[some (Value.vI 4)], [some (Value.vI 5)]]] := by
  have hw : compareWindows compareBulk 3
      [[some (Value.vI 1)], [some (Value.vI 2)], [some (Value.vI 3)],
        [some (Value.vI 4)], [some (Value.vI 5)]] =
      [[[some (Value.vI 1)], [some (Value.vI 2)], [some (Value.vI 3)]],
        [[some (Value.vI 4)], [some (Value.vI 5)]]] := by
    unfold compareWindows
    rw [chunks, if_neg (by omega)]
    norm_num
    rw [chunks, if_neg (by omega)]
    norm_num
    rw [chunks]
  refine ⟨hw, ?_⟩
  unfold executeUpdate
  rw [if_neg (by norm_num)]
  simp only [hw]
  norm_num [List.filter]

/-- Claim C6 (counterexample) — a dry-run delete phase over one target-only
key: the suppressed DELETE still increments `rwCount` (operation.cpp:374
executes `dbRw++` outside the dry-run guard), so the phase does not leave
`rwCount` unchanged as the claim states; no DELETE event is emitted. -/
theorem dbsync_c6_counterexample :
    (executeDelete true false (fun _ => true) [[some (Value.vI 1)]]).2.2 ≠ 0 ∧
      executeDelete true false (fun _ => true) [[some (Value.vI 1)]] =
        (true, [Ev.txBegin, Ev.txCommit], 1) := by
  constructor
  · intro h
    cases h
  · rfl

/-- Claim C6 (amended) — in every dry run the delete phase executes no
DELETE, yet adds the number of target-only keys to `rwCount`: the suppressed
deletes are still counted (one `dbRw++` per key), so `rwCount` does not count
only rows read. -/
theorem dbsync_c6_dry_delete_rw (noFail : Bool) (wOk : XRow → Bool)
    (keys : List XRow) :
    (executeDelete true noFail wOk keys).1 = true ∧
      writesOf (executeDelete true noFail wOk keys).2.1 = [] ∧
      (executeDelete true noFail wOk keys).2.2 = keys.length := by
  unfold executeDelete
  rcases hc : keys.length with _ | n
  · rw [if_pos rfl]
    exact ⟨rfl, rfl, rfl⟩
  · rw [if_neg (by omega), delLoop_dry]
    exact ⟨rfl, rfl, hc⟩

/-- Claim C7 (counterexample) — two non-empty tables in a non-dry run, the
first failing: the table loop of `Operation::execute` (operation.cpp:134,
`while((config.dryRun || ok) && ...)`) stops after the failing table, so the
second table is never processed — `noFail` is not consulted by this loop at
all, contrary to the claim. -/
theorem dbsync_c7_counterexample :
    executeTables false (fun _ => false) (fun t => t == "b") ["a", "b"] true =
        (["a"], false) ∧
      "b" ∉ ["a"] := by
  constructor
  · rfl
  · intro h
    simp at h

theorem executeTables_stopped (et rt : String → Bool) (tables : List String) :
    executeTables false et rt tables false = ([], false) := by
  cases tables with
  | nil => rfl
  | cons t rest => simp [executeTables]

/-- Claim C7 (amended) — the fate of the remaining tables is decided by
`dryRun`, not by `noFail` (which the table loop never consults): in a dry run
every non-empty table is processed regardless of failures, while in a non-dry
run the first failing table stops the loop and no later table is processed. -/
theorem dbsync_c7_stop_on_failure (et rt : String → Bool) :
    (∀ tables ok, (executeTables true et rt tables ok).1 =
      tables.filter (fun t => !(et t))) ∧
    (∀ pre t post, (∀ x ∈ pre, et x = false → rt x = true) → et t = false →
      rt t = false →
      executeTables false et rt (pre ++ t :: post) true =
        ((pre.filter (fun x => !(et x))) ++ [t], false)) := by
  constructor
  · intro tables
    induction tables with
    | nil => intro ok; rfl
    | cons x xs ih =>
      intro ok
      rcases hx : et x with _ | _ <;>
        simp [executeTables, hx, List.filter_cons, ih]
  · intro pre t post hpre ht hrt
    induction pre with
    | nil =>
      simp only [List.nil_append, List.filter_nil]
      simp [executeTables, ht, hrt, executeTables_stopped]
    | cons x xs ih =>
      have hxs : ∀ y ∈ xs, et y = false → rt y = true := by
        intro y hy
        exact hpre y (List.mem_cons_of_mem x hy)
      have ihx := ih hxs
      rcases hx : et x with _ | _
      · have hrx : rt x = true := hpre x (List.mem_cons_self x xs) hx
        simp [executeTables, hx, hrx, List.filter_cons, ihx]
      · simp [executeTables, hx, List.filter_cons, ihx]

/-- Witness for the amended C7 at concrete inputs: tables `p`, `q`, `r`
where `p` succeeds and `q` fails; `r` is not processed. -/
theorem dbsync_c7_stop_on_failure_witness :
    executeTables false (fun _ => false) (fun t => t == "p") (["p"] ++ "q" :: ["r"]) true =
      ((["p"].filter (fun _x => !(false : Bool))) ++ ["q"], false) :=
  (dbsync_c7_stop_on_failure (fun _ => false) (fun t => t == "p")).2 ["p"] "q" ["r"]
    (by intro x hx hx2; simp at hx; simp [hx]) rfl rfl

/-- The append loop of `TableKeys::loadRow` (keys.cpp:85-110): push one cell
of the row onto each column vector.  (A row shorter than the column list
leaves the trailing columns untouched, as in the source; a longer row would
be the out-of-bounds access of the source and is truncated.) -/
def appendRow : List (List Value) → List Value → List (List Value)
  | c :: cs, v :: vs => (c ++ [v]) :: appendRow cs vs
  | cs, [] => cs
  | [], _ :: _ => []

/-- The default-constructed `TableKeys` (keys.cpp:27): no rows, `sorted`
initially true. -/
def TableKeys.empty : TableKeys := ⟨0, [], [], [], [], true⟩

/-- `TableKeys::loadRow` (keys.cpp:81-114): on the first row, `init` creates
one empty typed vector per column (the column names come from the driver row
and are irrelevant here); then one cell is appended per column, the count is
incremented, and while `sorted` still holds it is updated with the strict
`less` comparison of the two last physical rows. -/
def TableKeys.loadRow (k : TableKeys) (row : List Value) : TableKeys :=
  let cols' := if k.count = 0 then appendRow (row.map (fun _ => [])) row
    else appendRow k.cols row
  let count' := k.count + 1
  let k' : TableKeys := { k with cols := cols', count := count' }
  let sorted' := if 1 < count' ∧ k.sorted = true then
      k'.lessSelf (count' - 2) (count' - 1)
    else k.sorted
  { k' with sorted := sorted' }

/-- A `TableKeys` built by a sequence of `loadRow` calls. -/
def buildKeys (rows : List (List Value)) : TableKeys :=
  rows.foldl TableKeys.loadRow TableKeys.empty

/-- `TableKeys::sort` (keys.cpp:180-207): build the identity permutation and
the all-false flags; when rows were not already sorted during loading, sort
the permutation with `std::sort` under the strict `less` comparator.
`std::sort`'s contract — the result is a permutation ordered so that no
later element is `less` than an earlier one — is realized by `mergeSort`
under the non-strict complement of `less`. -/
def TableKeys.sort (k : TableKeys) : TableKeys :=
  let idx := List.range k.count
  let flags := List.replicate k.count false
  let idx' := if 0 < k.count ∧ k.sorted = false then
      idx.mergeSort (fun i j => !(k.lessSelf j i))
    else idx
  { k with index := idx', flags := flags }

theorem TableKeys.lessSelf_eq (k : TableKeys) (p q : Nat) :
    k.lessSelf p q = decide (cmpX (k.xrow p) (k.xrow q) = POrd.lt) := by
  unfold TableKeys.lessSelf
  split
  · rename_i hpq
    subst hpq
    rw [cmpX_refl]
    simp
  · rw [TableKeys.compare_eq_cmpX]

/-- The construction invariant of `buildKeys`: the column count matches the
common row shape `sh`, every column holds `count` cells, the physical row at
position `p` is the `p`-th loaded row, every cell of a column carries that
column's type tag, and while the `sorted` flag survives the loads the
physical rows are strictly increasing. -/
def Built (k : TableKeys) (rows : List (List Value)) (sh : List Nat) : Prop :=
  k.count = rows.length ∧
  k.cols.length = (if rows.isEmpty then 0 else sh.length) ∧
  (∀ c ∈ k.cols, c.length = k.count) ∧
  (∀ p, p < k.count → k.xrow p = (rows.getD p []).map some) ∧
  (∀ pr ∈ k.cols.zip sh, ∀ v ∈ pr.1, v.tag = pr.2) ∧
  (k.sorted = true → ∀ p, p + 1 < k.count →
    cmpX (k.xrow p) (k.xrow (p + 1)) = POrd.lt)

theorem appendRow_map_nil (row : List Value) :
    appendRow (row.map (fun _ => [])) row = row.map (fun v => [v]) := by
  induction row with
  | nil => rfl
  | cons v vs ih => simp only [List.map_cons, appendRow, List.nil_append, ih]

theorem appendRow_zip (cols : List (List Value)) (row : List Value)
    (h : cols.length = row.length) :
    appendRow cols row = (cols.zip row).map (fun pr => pr.1 ++ [pr.2]) := by
  induction cols generalizing row with
  | nil =>
    cases row with
    | nil => rfl
    | cons v vs => simp at h
  | cons c cs ih =>
    cases row with
    | nil => simp at h
    | cons v vs =>
      simp only [List.length_cons, Nat.succ.injEq] at h
      simp [appendRow, List.zip_cons_cons, ih vs h]

theorem appended_get?_lt (cols : List (List Value)) (row : List Value)
    (n : Nat) (hcl : ∀ c ∈ cols, c.length = n) (p : Nat) (hp : p < n) :
    ((cols.zip row).map (fun pr => pr.1 ++ [pr.2])).map (fun c => c.get? p) =
      (cols.zip row).map (fun pr => pr.1.get? p) := by
  induction cols generalizing row with
  | nil => rfl
  | cons c cs ih =>
    cases row with
    | nil => rfl
    | cons v vs =>
      have hc : c.length = n := hcl c (by simp)
      have hcs : ∀ c' ∈ cs, c'.length = n := fun c' hc' => hcl c' (by simp [hc'])
      simp only [List.zip_cons_cons, List.map_cons, ih vs hcs]
      rw [List.get?_append (by omega)]

theorem zip_map_fst_get? (cols : List (List Value)) (row : List Value)
    (h : cols.length = row.length) (p : Nat) :
    (cols.zip row).map (fun pr => pr.1.get? p) = cols.map (fun c => c.get? p) := by
  induction cols generalizing row with
  | nil => rfl
  | cons c cs ih =>
    cases row with
    | nil => simp at h
    | cons v vs =>
      simp only [List.length_cons, Nat.succ.injEq] at h
      simp only [List.zip_cons_cons, List.map_cons, ih vs h]

theorem appended_get?_last (cols : List (List Value)) (row : List Value)
    (h : cols.length = row.length) (n : Nat) (hcl : ∀ c ∈ cols, c.length = n) :
    ((cols.zip row).map (fun pr => pr.1 ++ [pr.2])).map (fun c => c.get? n) =
      row.map some := by
  induction cols generalizing row with
  | nil =>
    cases row with
    | nil => rfl
    | cons v vs => simp at h
  | cons c cs ih =>
    cases row with
    | nil => simp at h
    | cons v vs =>
      simp only [List.length_cons, Nat.succ.injEq] at h
      have hc : c.length = n := hcl c (by simp)
      have hcs : ∀ c' ∈ cs, c'.length = n := fun c' hc' => hcl c' (by simp [hc'])
      simp only [List.zip_cons_cons, List.map_cons, ih vs h hcs]
      rw [List.get?_append_right (by omega)]
      simp [hc]

theorem tags_init (row : List Value) :
    ∀ pr ∈ (row.map (fun v => [v])).zip (row.map Value.tag),
      ∀ v ∈ pr.1, v.tag = pr.2 := by
  induction row with
  | nil => intro pr hpr; cases hpr
  | cons v vs ih =>
    intro pr hpr
    simp only [List.map_cons, List.zip_cons_cons, List.mem_cons] at hpr
    rcases hpr with h | h
    · subst h
      intro w hw
      simp only [List.mem_singleton] at hw
      subst hw
      rfl
    · exact ih pr h

theorem tags_append (cols : List (List Value)) (row : List Value)
    (sh : List Nat) (hrow : row.map Value.tag = sh)
    (hold : ∀ pr ∈ cols.zip sh, ∀ v ∈ pr.1, v.tag = pr.2) :
    ∀ pr ∈ ((cols.zip row).map (fun pr => pr.1 ++ [pr.2])).zip sh,
      ∀ v ∈ pr.1, v.tag = pr.2 := by
  induction cols generalizing row sh with
  | nil => intro pr hpr; cases hpr
  | cons c cs ih =>
    cases row with
    | nil => intro pr hpr; cases hpr
    | cons v vs =>
      subst hrow
      intro pr hpr
      simp only [List.map_cons, List.zip_cons_cons, List.mem_cons] at hpr
      rcases hpr with h | h
      · subst h
        intro w hw
        rcases List.mem_append.mp hw with hw | hw
        · exact hold (c, v.tag) (by simp [List.zip_cons_cons]) w hw
        · simp only [List.mem_singleton] at hw
          subst hw
          rfl
      · exact ih vs (vs.map Value.tag) rfl
          (fun pr' hpr' => hold pr' (by simp [List.zip_cons_cons, hpr'])) pr h

theorem TableKeys.loadRow_count (k : TableKeys) (row : List Value) :
    (k.loadRow row).count = k.count + 1 := rfl

theorem TableKeys.loadRow_cols (k : TableKeys) (row : List Value) :
    (k.loadRow row).cols = if k.count = 0 then
      appendRow (row.map (fun _ => [])) row
    else appendRow k.cols row := rfl

theorem TableKeys.loadRow_sorted (k : TableKeys) (row : List Value) :
    (k.loadRow row).sorted = if 1 < k.count + 1 ∧ k.sorted = true then
      TableKeys.lessSelf
        { k with cols := (k.loadRow row).cols, count := k.count + 1 }
        (k.count + 1 - 2) (k.count + 1 - 1)
    else k.sorted := rfl

theorem Built.loadRow {k : TableKeys} {rows : List (List Value)}
    {sh : List Nat} {row : List Value} (hb : Built k rows sh)
    (hrow : row.map Value.tag = sh) :
    Built (k.loadRow row) (rows ++ [row]) sh := by
  obtain ⟨hcount, hclen, hcl, hx, htags, hsorted⟩ := hb
  have hshlen : row.length = sh.length := by rw [← hrow, List.length_map]
  by_cases hc0 : k.count = 0
  · have hrows : rows = [] := List.length_eq_zero.mp (by omega)
    subst hrows
    have hcols : (k.loadRow row).cols = row.map (fun v => [v]) := by
      rw [TableKeys.loadRow_cols, if_pos hc0, appendRow_map_nil]
    have hcnt : (k.loadRow row).count = 1 := by
      rw [TableKeys.loadRow_count, hc0]
    have hxr0 : (k.loadRow row).xrow 0 = row.map some := by
      show (k.loadRow row).cols.map (fun c => c.get? 0) = _
      rw [hcols, List.map_map]
      rfl
    refine ⟨by simp [hcnt], ?_, ?_, ?_, ?_, ?_⟩
    · rw [hcols]
      simp [hshlen]
    · intro c hc
      rw [hcols] at hc
      simp only [List.mem_map] at hc
      obtain ⟨v, _, hv⟩ := hc
      simp [← hv, hcnt]
    · intro p hp
      rw [hcnt] at hp
      have hp0 : p = 0 := by omega
      subst hp0
      simpa using hxr0
    · intro pr hpr
      rw [hcols] at hpr
      exact tags_init row pr (by rw [hrow]; exact hpr)
    · intro hs p hp
      rw [hcnt] at hp
      omega
  · have hne : rows.isEmpty = false := by
      rcases rows with _ | ⟨r0, rest⟩
      · rw [List.length_nil] at hcount
        exact absurd hcount hc0
      · rfl
    have hclen' : k.cols.length = sh.length := by rw [hclen, if_neg (by simp [hne])]
    have hlen2 : k.cols.length = row.length := by omega
    have hcols : (k.loadRow row).cols =
        (k.cols.zip row).map (fun pr => pr.1 ++ [pr.2]) := by
      rw [TableKeys.loadRow_cols, if_neg hc0, appendRow_zip _ _ hlen2]
    have hxlt : ∀ p, p < k.count → (k.loadRow row).xrow p = k.xrow p := by
      intro p hp
      show (k.loadRow row).cols.map (fun c => c.get? p) = k.xrow p
      rw [hcols, appended_get?_lt k.cols row k.count hcl p hp,
        zip_map_fst_get? k.cols row hlen2 p]
      rfl
    have hxlast : (k.loadRow row).xrow k.count = row.map some := by
      show (k.loadRow row).cols.map (fun c => c.get? k.count) = _
      rw [hcols, appended_get?_last k.cols row hlen2 k.count hcl]
    refine ⟨by rw [TableKeys.loadRow_count, hcount, List.length_append,
        List.length_cons, List.length_nil], ?_, ?_, ?_, ?_, ?_⟩
    · rw [hcols]
      simp only [List.length_map, List.length_zip, hlen2, Nat.min_self]
      rw [if_neg (by simp), ← hlen2, hclen']
    · intro c hc
      rw [hcols] at hc
      simp only [List.mem_map] at hc
      obtain ⟨pr, hpr, hc'⟩ := hc
      have hl : pr.1.length = k.count := hcl pr.1 (List.mem_zip hpr).1
      rw [TableKeys.loadRow_count, ← hc']
      simp [hl]
    · intro p hp
      rw [TableKeys.loadRow_count] at hp
      rcases Nat.lt_or_ge p k.count with hlt | hge
      · rw [hxlt p hlt, List.getD_eq_getElem?_getD,
          List.getElem?_append_left (by omega), ← List.getD_eq_getElem?_getD]
        exact hx p hlt
      · have hpe : p = k.count := by omega
        subst hpe
        rw [hxlast, List.getD_eq_getElem?_getD,
          List.getElem?_append_right (by omega)]
        simp [hcount]
    · intro pr hpr
      rw [hcols] at hpr
      exact tags_append k.cols row sh hrow htags pr hpr
    · intro hs p hp
      rw [TableKeys.loadRow_sorted] at hs
      rw [TableKeys.loadRow_count] at hp
      rcases hks : k.sorted with _ | _
      · rw [if_neg (by rw [hks]; intro hcc; cases hcc.2)] at hs
        rw [hks] at hs
        cases hs
      · rw [if_pos ⟨by omega, hks⟩, TableKeys.lessSelf_eq] at hs
        have hlast := of_decide_eq_true hs
        have hxeq : ∀ q, TableKeys.xrow
            { k with cols := (k.loadRow row).cols, count := k.count + 1 } q =
            (k.loadRow row).xrow q := fun q => rfl
        rw [hxeq, hxeq] at hlast
        have e1 : k.count + 1 - 2 = k.count - 1 := by omega
        have e2 : k.count + 1 - 1 = k.count := by omega
        rw [e1, e2] at hlast
        rcases Nat.lt_or_ge (p + 1) k.count with hplt | hpge
        · rw [hxlt p (by omega), hxlt (p + 1) hplt]
          exact hsorted hks p hplt
        · have hpe : p + 1 = k.count := by omega
          have hpe' : p = k.count - 1 := by omega
          rw [hpe, hpe']
          exact hlast

theorem built_buildKeys (rows : List (List Value)) (sh : List Nat)
    (hsh : ∀ r ∈ rows, r.map Value.tag = sh) :
    Built (buildKeys rows) rows sh := by
  induction rows using List.reverseRecOn with
  | nil =>
    refine ⟨rfl, rfl, ?_, ?_, ?_, ?_⟩
    · intro c hc
      cases hc
    · intro p hp
      cases hp
    · intro pr hpr
      cases hpr
    · intro _ p hp
      cases hp
  | append_singleton rs r ih =>
    have hb : Built (buildKeys rs) rs sh :=
      ih fun x hx => hsh x (List.mem_append_left _ hx)
    have hr : r.map Value.tag = sh := hsh r (List.mem_append_right _ (by simp))
    have : buildKeys (rs ++ [r]) = (buildKeys rs).loadRow r := by
      unfold buildKeys
      rw [List.foldl_append]
      rfl
    rw [this]
    exact hb.loadRow hr

theorem Built.col_tags {k : TableKeys} {rows : List (List Value)}
    {sh : List Nat} (hb : Built k rows sh) :
    ∀ c ∈ k.cols, ∀ v ∈ c, ∀ w ∈ c, v.tag = w.tag := by
  obtain ⟨hcount, hclen, hcl, hx, htags, hsorted⟩ := hb
  have hle : k.cols.length ≤ sh.length := by
    rw [hclen]
    split <;> omega
  intro c hc v hv w hw
  obtain ⟨i, hci⟩ := List.mem_iff_get.mp hc
  have hi : (i : Nat) < k.cols.length := i.isLt
  have hish : (i : Nat) < sh.length := lt_of_lt_of_le hi hle
  have hiz : (i : Nat) < (k.cols.zip sh).length := by
    rw [List.length_zip]
    omega
  have hpr : (c, sh[(i : Nat)]) ∈ k.cols.zip sh := by
    have hmem : (k.cols.zip sh)[(i : Nat)] ∈ k.cols.zip sh :=
      List.getElem_mem hiz
    rw [List.getElem_zip] at hmem
    have hcc : k.cols[(i : Nat)] = c := by
      rw [← hci]
      simp [List.get_eq_getElem]
    rw [hcc] at hmem
    exact hmem
  have hvt := htags _ hpr v hv
  have hwt := htags _ hpr w hw
  rw [hvt, hwt]

theorem Built.xrow_rcompat {k : TableKeys} {rows : List (List Value)}
    {sh : List Nat} (hb : Built k rows sh) (p q : Nat) :
    RCompat (k.xrow p) (k.xrow q) := by
  constructor
  · show (k.cols.map _).length = (k.cols.map _).length
    rw [List.length_map, List.length_map]
  · intro pr hpr
    have hz : (k.xrow p).zip (k.xrow q) =
        k.cols.map (fun c => (c.get? p, c.get? q)) := by
      show (k.cols.map _).zip (k.cols.map _) = _
      rw [List.zip_map']
    rw [hz] at hpr
    simp only [List.mem_map] at hpr
    obtain ⟨c, hc, hcpr⟩ := hpr
    intro v w hv hw
    rw [← hcpr] at hv hw
    simp only at hv hw
    exact hb.col_tags c hc v (List.get?_mem hv) w (List.get?_mem hw)

theorem Built.xrow_len {k : TableKeys} {rows : List (List Value)}
    {sh : List Nat} (hb : Built k rows sh) (p q : Nat) :
    (k.xrow p).length = (k.xrow q).length := (hb.xrow_rcompat p q).1

theorem cmpX_trans_le {a b c : XRow} (hab : a.length = b.length)
    (hbc : b.length = c.length)
    (h1 : cmpX a b = POrd.lt ∨ cmpX a b = POrd.eq)
    (h2 : cmpX b c = POrd.lt ∨ cmpX b c = POrd.eq) :
    cmpX a c = POrd.lt ∨ cmpX a c = POrd.eq := by
  rcases h1 with h1 | h1
  · exact Or.inl (cmpX_trans_lt_le hbc h1 h2)
  · rw [(cmpX_eq_iff hab).mp h1]
    exact h2

theorem le_iff_not_lt {k : TableKeys} (p q : Nat) :
    (!(k.lessSelf q p)) = true ↔ cmpX (k.xrow q) (k.xrow p) ≠ POrd.lt := by
  rw [TableKeys.lessSelf_eq]
  simp

theorem not_lt_iff_le {k : TableKeys} {rows : List (List Value)}
    {sh : List Nat} (hb : Built k rows sh) (p q : Nat) :
    cmpX (k.xrow q) (k.xrow p) ≠ POrd.lt ↔
      (cmpX (k.xrow p) (k.xrow q) = POrd.lt ∨
        cmpX (k.xrow p) (k.xrow q) = POrd.eq) := by
  have hlen : (k.xrow q).length = (k.xrow p).length := hb.xrow_len q p
  constructor
  · intro hnl
    rcases cmpX_total (hb.xrow_rcompat q p) with h | h | h
    · exact absurd h hnl
    · exact Or.inr (by
        rw [cmpX_flip hlen.symm, h]
        rfl)
    · exact Or.inl (cmpX_gt_flip hlen h)
  · intro hle hlt
    rcases hle with hle | hle
    · have := cmpX_lt_flip hlen.symm hle
      rw [this] at hlt
      cases hlt
    · rw [cmpX_flip hlen, hle] at hlt
      cases hlt

theorem sortLe_trans {k : TableKeys} {rows : List (List Value)}
    {sh : List Nat} (hb : Built k rows sh) (p q r : Nat)
    (h1 : (!(k.lessSelf q p)) = true) (h2 : (!(k.lessSelf r q)) = true) :
    (!(k.lessSelf r p)) = true := by
  rw [le_iff_not_lt, not_lt_iff_le hb] at h1 h2 ⊢
  exact cmpX_trans_le (hb.xrow_len p q) (hb.xrow_len q r) h1 h2

theorem sortLe_total {k : TableKeys} {rows : List (List Value)}
    {sh : List Nat} (hb : Built k rows sh) (p q : Nat) :
    ((!(k.lessSelf q p)) || (!(k.lessSelf p q))) = true := by
  rcases hl : k.lessSelf q p with _ | _
  · simp
  · rw [TableKeys.lessSelf_eq] at hl
    have hlt := of_decide_eq_true hl
    have : cmpX (k.xrow p) (k.xrow q) ≠ POrd.lt := by
      rw [cmpX_flip (hb.xrow_len p q), hlt]
      intro hc
      cases hc
    simp only [Bool.or_eq_true]
    right
    rw [le_iff_not_lt]
    exact this

theorem chain_strict_lt {k : TableKeys} {rows : List (List Value)}
    {sh : List Nat} (hb : Built k rows sh) (hks : k.sorted = true) :
    ∀ i j, i < j → j < k.count → cmpX (k.xrow i) (k.xrow j) = POrd.lt := by
  intro i j
  induction j with
  | zero => intro h _; omega
  | succ j' ih =>
    intro hij hj
    rcases Nat.lt_or_ge i j' with hlt | hge
    · exact cmpX_trans_lt (ih hlt (by omega)) (hb.2.2.2.2.2 hks j' hj)
    · have : i = j' := by omega
      subst this
      exact hb.2.2.2.2.2 hks i hj

theorem TableKeys.sort_count (k : TableKeys) : k.sort.count = k.count := rfl

theorem TableKeys.sort_index (k : TableKeys) :
    k.sort.index = if 0 < k.count ∧ k.sorted = false then
      (List.range k.count).mergeSort (fun i j => !(k.lessSelf j i))
    else List.range k.count := rfl

theorem getD_eq_get {l : List Nat} {i : Nat} (h : i < l.length) :
    l.getD i 0 = l.get ⟨i, h⟩ := by
  simp [List.getD_eq_getElem?_getD, List.getElem?_eq_getElem h,
    List.get_eq_getElem]

/-- Claim C2 — for every KeyTable built by a sequence of `loadRow` calls with
type-consistent rows (all rows share the tag shape `sh`), after `sort` the
index array is a permutation of `0 .. rowCount-1`, and for all `i < j <
rowCount` the comparison of the row at `permutation[i]` against the row at
`permutation[j]` is `less` or `equivalent` — including the fast path where
the `std::sort` is skipped because the rows were already strictly increasing
during loading. -/
theorem dbsync_c2_sort (rows : List (List Value)) (sh : List Nat)
    (hsh : ∀ r ∈ rows, r.map Value.tag = sh) :
    (buildKeys rows).sort.index.Perm
        (List.range (buildKeys rows).sort.count) ∧
      ∀ i j, i < j → j < (buildKeys rows).sort.count →
        ((buildKeys rows).sort.compare ((buildKeys rows).sort.index.getD i 0)
            (buildKeys rows).sort
            ((buildKeys rows).sort.index.getD j 0) = POrd.lt ∨
          (buildKeys rows).sort.compare ((buildKeys rows).sort.index.getD i 0)
            (buildKeys rows).sort
            ((buildKeys rows).sort.index.getD j 0) = POrd.eq) := by
  have hb := built_buildKeys rows sh hsh
  have hcompare : ∀ a b, (buildKeys rows).sort.compare a (buildKeys rows).sort b =
      cmpX ((buildKeys rows).xrow a) ((buildKeys rows).xrow b) := by
    intro a b
    rw [TableKeys.compare_eq_cmpX]
    rfl
  rw [TableKeys.sort_index, TableKeys.sort_count]
  by_cases hcond : 0 < (buildKeys rows).count ∧ (buildKeys rows).sorted = false
  · rw [if_pos hcond]
    refine ⟨List.mergeSort_perm _ _, ?_⟩
    intro i j hij hj
    have hlen : ((List.range (buildKeys rows).count).mergeSort
        (fun i j => !((buildKeys rows).lessSelf j i))).length =
        (buildKeys rows).count := by
      rw [List.length_mergeSort, List.length_range]
    have hjl : j < ((List.range (buildKeys rows).count).mergeSort
        (fun i j => !((buildKeys rows).lessSelf j i))).length := by omega
    have hil : i < ((List.range (buildKeys rows).count).mergeSort
        (fun i j => !((buildKeys rows).lessSelf j i))).length := by omega
    have hpw := @List.sorted_mergeSort _
      (fun i j => !((buildKeys rows).lessSelf j i))
      (fun a b c h1 h2 => sortLe_trans hb a b c h1 h2)
      (fun a b => sortLe_total hb a b)
      (List.range (buildKeys rows).count)
    have hrel := List.pairwise_iff_get.mp hpw ⟨i, hil⟩ ⟨j, hjl⟩ hij
    rw [getD_eq_get hil, getD_eq_get hjl, hcompare]
    rw [le_iff_not_lt, not_lt_iff_le hb] at hrel
    exact hrel
  · rw [if_neg hcond]
    refine ⟨List.Perm.refl _, ?_⟩
    intro i j hij hj
    have hcpos : 0 < (buildKeys rows).count := by omega
    have hsorted : (buildKeys rows).sorted = true := by
      rcases hs : (buildKeys rows).sorted with _ | _
      · exact absurd ⟨hcpos, hs⟩ hcond
      · rfl
    have hjl : j < (List.range (buildKeys rows).count).length := by
      rw [List.length_range]
      omega
    have hil : i < (List.range (buildKeys rows).count).length := by
      rw [List.length_range]
      omega
    rw [getD_eq_get hil, getD_eq_get hjl, hcompare]
    simp only [List.get_eq_getElem, List.getElem_range]
    exact Or.inl (chain_strict_lt hb hsorted i j hij hj)

/-- Witness for C2 at a concrete input exercising the `std::sort` path: two
one-column integer rows loaded out of order. -/
theorem dbsync_c2_sort_witness :
    (buildKeys [[Value.vI 2], [Value.vI 1]]).sort.index.Perm
        (List.range (buildKeys [[Value.vI 2], [Value.vI 1]]).sort.count) ∧
      ∀ i j, i < j → j < (buildKeys [[Value.vI 2], [Value.vI 1]]).sort.count →
        ((buildKeys [[Value.vI 2], [Value.vI 1]]).sort.compare
            ((buildKeys [[Value.vI 2], [Value.vI 1]]).sort.index.getD i 0)
            (buildKeys [[Value.vI 2], [Value.vI 1]]).sort
            ((buildKeys [[Value.vI 2], [Value.vI 1]]).sort.index.getD j 0) =
              POrd.lt ∨
          (buildKeys [[Value.vI 2], [Value.vI 1]]).sort.compare
            ((buildKeys [[Value.vI 2], [Value.vI 1]]).sort.index.getD i 0)
            (buildKeys [[Value.vI 2], [Value.vI 1]]).sort
            ((buildKeys [[Value.vI 2], [Value.vI 1]]).sort.index.getD j 0) =
              POrd.eq) :=
  dbsync_c2_sort [[Value.vI 2], [Value.vI 1]] [0] (by
    intro r hr
    simp only [List.mem_cons, List.not_mem_nil, or_false] at hr
    rcases hr with h | h <;> rw [h] <;> rfl)

theorem TableKeys.setFlag_count (k : TableKeys) (i : Nat) (v : Bool) :
    (k.setFlag i v).count = k.count := rfl

theorem TableKeys.setFlag_lrow (k : TableKeys) (i : Nat) (v : Bool) (j : Nat) :
    (k.setFlag i v).lrow j = k.lrow j := rfl

theorem TableKeys.setFlag_flags_length (k : TableKeys) (i : Nat) (v : Bool) :
    (k.setFlag i v).flags.length = k.flags.length := by
  simp [TableKeys.setFlag]

theorem TableKeys.setFlag_get?_same {k : TableKeys} {i : Nat} (v : Bool)
    (h : i < k.flags.length) : (k.setFlag i v).flags.get? i = some v := by
  simp [TableKeys.setFlag, List.get?_eq_getElem?, List.getElem?_set_self', h,
    List.getElem?_eq_getElem h]

theorem TableKeys.setFlag_get?_other {k : TableKeys} {i j : Nat} (v : Bool)
    (h : i ≠ j) : (k.setFlag i v).flags.get? j = k.flags.get? j := by
  simp [TableKeys.setFlag, List.get?_eq_getElem?, List.getElem?_set_ne h]

theorem TableKeys.less_eq (k : TableKeys) (i : Nat) (other : TableKeys)
    (j : Nat) : k.less i other j =
      decide (cmpX (k.lrow i) (other.lrow j) = POrd.lt) := by
  unfold TableKeys.less TableKeys.lrow
  rw [TableKeys.compare_eq_cmpX]

/-- No row of `t` at sorted position `d` or later equals `a` — the condition
under which the merge marks a key as only-on-the-other-side. -/
def notMemFrom (t : TableKeys) (d : Nat) (a : XRow) : Bool :=
  (List.range' d (t.count - d)).all (fun j => decide (t.lrow j ≠ a))

theorem notMemFrom_iff (t : TableKeys) (d : Nat) (a : XRow) :
    notMemFrom t d a = true ↔ ∀ j, d ≤ j → j < t.count → t.lrow j ≠ a := by
  unfold notMemFrom
  rw [List.all_eq_true]
  constructor
  · intro h j h1 h2
    have hj : j ∈ List.range' d (t.count - d) := by
      rw [List.mem_range'_1]
      omega
    exact of_decide_eq_true (h j hj)
  · intro h j hj
    rw [List.mem_range'_1] at hj
    exact decide_eq_true (h j hj.1 (by omega))

theorem notMemFrom_setFlag (k : TableKeys) (i : Nat) (v : Bool) (d : Nat)
    (a : XRow) : notMemFrom (k.setFlag i v) d a = notMemFrom k d a := rfl

theorem notMemFrom_of_exhausted (t : TableKeys) {d : Nat} (h : t.count ≤ d)
    (a : XRow) : notMemFrom t d a = true := by
  unfold notMemFrom
  rw [show t.count - d = 0 from by omega]
  rfl

theorem notMemFrom_succ (t : TableKeys) {d : Nat} (h : d < t.count)
    (a : XRow) : notMemFrom t d a =
      (decide (t.lrow d ≠ a) && notMemFrom t (d + 1) a) := by
  unfold notMemFrom
  rw [show t.count - d = (t.count - (d + 1)) + 1 from by omega,
    List.range'_succ, List.all_cons]

theorem notMemFrom_false (t : TableKeys) {d j : Nat} (h1 : d ≤ j)
    (h2 : j < t.count) {a : XRow} (he : t.lrow j = a) :
    notMemFrom t d a = false := by
  rcases hb : notMemFrom t d a with _ | _
  · rfl
  · exact absurd he ((notMemFrom_iff t d a).mp hb j h1 h2)

theorem drainFlags_spec_aux (n : Nat) : ∀ (k : TableKeys) (i : Nat),
    k.count - i ≤ n → k.flags.length = k.count →
    (drainFlags k i).count = k.count ∧
      (drainFlags k i).index = k.index ∧
      (drainFlags k i).cols = k.cols ∧
      (drainFlags k i).flags.length = k.count ∧
      (∀ j, j < i → (drainFlags k i).flags.get? j = k.flags.get? j) ∧
      (∀ j, i ≤ j → j < k.count → (drainFlags k i).flags.get? j = some true) := by
  induction n with
  | zero =>
    intro k i hm hf
    have hge : k.count ≤ i := by omega
    rw [drainFlags, if_neg (by simp [TableKeys.size]; omega)]
    refine ⟨rfl, rfl, rfl, hf, fun j _ => rfl, fun j h1 h2 => ?_⟩
    omega
  | succ n ih =>
    intro k i hm hf
    by_cases hlt : i < k.count
    · rw [drainFlags, if_pos (by simp [TableKeys.size]; omega)]
      have hm' : (k.setFlag i true).count - (i + 1) ≤ n := by
        rw [TableKeys.setFlag_count]
        omega
      have hf' : (k.setFlag i true).flags.length = (k.setFlag i true).count := by
        rw [TableKeys.setFlag_flags_length, TableKeys.setFlag_count, hf]
      obtain ⟨hc, hix, hcols, hfl, hpre, hsuf⟩ := ih (k.setFlag i true) (i + 1) hm' hf'
      rw [TableKeys.setFlag_count] at hc hfl hsuf
      refine ⟨hc, hix, hcols, hfl, ?_, ?_⟩
      · intro j hj
        rw [hpre j (by omega), TableKeys.setFlag_get?_other true (by omega)]
      · intro j h1 h2
        rcases Nat.lt_or_ge j (i + 1) with hj | hj
        · have hje : j = i := by omega
          subst hje
          rw [hpre j (by omega), TableKeys.setFlag_get?_same true (by omega)]
        · exact hsuf j hj h2
    · rw [drainFlags, if_neg (by simp [TableKeys.size]; omega)]
      refine ⟨rfl, rfl, rfl, hf, fun j _ => rfl, fun j h1 h2 => ?_⟩
      omega

theorem drainFlags_spec (k : TableKeys) (i : Nat)
    (hf : k.flags.length = k.count) :
    (drainFlags k i).count = k.count ∧
      (drainFlags k i).index = k.index ∧
      (drainFlags k i).cols = k.cols ∧
      (drainFlags k i).flags.length = k.count ∧
      (∀ j, j < i → (drainFlags k i).flags.get? j = k.flags.get? j) ∧
      (∀ j, i ≤ j → j < k.count → (drainFlags k i).flags.get? j = some true) :=
  drainFlags_spec_aux (k.count - i) k i (le_refl _) hf

theorem TableKeys.less_true_iff (k : TableKeys) (i : Nat) (other : TableKeys)
    (j : Nat) : k.less i other j = true ↔
      cmpX (k.lrow i) (other.lrow j) = POrd.lt := by
  rw [TableKeys.less_eq]
  simp

theorem TableKeys.less_false_iff (k : TableKeys) (i : Nat) (other : TableKeys)
    (j : Nat) : k.less i other j = false ↔
      ¬ cmpX (k.lrow i) (other.lrow j) = POrd.lt := by
  rw [TableKeys.less_eq]
  simp

theorem compareKeysLoop_lt {src dest : TableKeys} {si di : Nat}
    (h : si < src.size ∧ di < dest.size) (hl : src.less si dest di = true) :
    compareKeysLoop src dest si di =
      compareKeysLoop (src.setFlag si true) dest (si + 1) di := by
  rw [compareKeysLoop]
  rw [dif_pos h, if_pos hl]

theorem compareKeysLoop_gt {src dest : TableKeys} {si di : Nat}
    (h : si < src.size ∧ di < dest.size) (hl : src.less si dest di = false)
    (hl2 : dest.less di src si = true) :
    compareKeysLoop src dest si di =
      compareKeysLoop src (dest.setFlag di true) si (di + 1) := by
  rw [compareKeysLoop]
  rw [dif_pos h, if_neg (by rw [hl]; simp), if_pos hl2]

theorem compareKeysLoop_both {src dest : TableKeys} {si di : Nat}
    (h : si < src.size ∧ di < dest.size) (hl : src.less si dest di = false)
    (hl2 : dest.less di src si = false) :
    compareKeysLoop src dest si di =
      compareKeysLoop src dest (si + 1) (di + 1) := by
  rw [compareKeysLoop]
  rw [dif_pos h, if_neg (by rw [hl]; simp), if_neg (by rw [hl2]; simp)]

theorem compareKeysLoop_exit {src dest : TableKeys} {si di : Nat}
    (h : ¬(si < src.size ∧ di < dest.size)) :
    compareKeysLoop src dest si di = (src, dest, si, di) := by
  rw [compareKeysLoop]
  rw [dif_neg h]

/-- The drained source side of the merge, starting from cursors `si`, `di`. -/
def mergedSrc (src dest : TableKeys) (si di : Nat) : TableKeys :=
  drainFlags (compareKeysLoop src dest si di).1
    (compareKeysLoop src dest si di).2.2.1

/-- The drained target side of the merge. -/
def mergedDest (src dest : TableKeys) (si di : Nat) : TableKeys :=
  drainFlags (compareKeysLoop src dest si di).2.1
    (compareKeysLoop src dest si di).2.2.2

/-- Correctness statement of the merge from cursor state `(si, di)`: the
flags below the cursors are untouched, and every row from a cursor on is
flagged exactly when its key does not occur in the other side's remaining
suffix. -/
def MergeSpec (src dest : TableKeys) (si di : Nat) : Prop :=
  (mergedSrc src dest si di).count = src.count ∧
  (mergedDest src dest si di).count = dest.count ∧
  (mergedSrc src dest si di).flags.length = src.count ∧
  (mergedDest src dest si di).flags.length = dest.count ∧
  (∀ i, i < si → (mergedSrc src dest si di).flags.get? i = src.flags.get? i) ∧
  (∀ j, j < di → (mergedDest src dest si di).flags.get? j = dest.flags.get? j) ∧
  (∀ i, si ≤ i → i < src.count → (mergedSrc src dest si di).flags.get? i =
    some (notMemFrom dest di (src.lrow i))) ∧
  (∀ j, di ≤ j → j < dest.count → (mergedDest src dest si di).flags.get? j =
    some (notMemFrom src si (dest.lrow j)))

/-- Premises of the merge: well-sized flag vectors, strictly sorted logical
rows on both sides (K2 plus duplicate-freedom), columnwise type
compatibility across the sides, and still-unset flags from the cursors on. -/
def MergeHyps (src dest : TableKeys) (si di : Nat) : Prop :=
  src.flags.length = src.count ∧
  dest.flags.length = dest.count ∧
  (∀ j, j < src.count → ∀ i, i < j →
    cmpX (src.lrow i) (src.lrow j) = POrd.lt) ∧
  (∀ j, j < dest.count → ∀ i, i < j →
    cmpX (dest.lrow i) (dest.lrow j) = POrd.lt) ∧
  (∀ i, i < src.count → ∀ j, j < dest.count →
    RCompat (src.lrow i) (dest.lrow j)) ∧
  (∀ i, si ≤ i → i < src.count → src.flags.get? i = some false) ∧
  (∀ j, di ≤ j → j < dest.count → dest.flags.get? j = some false)

theorem mergeSpec_exit (src dest : TableKeys) (si di : Nat)
    (hx : ¬(si < src.size ∧ di < dest.size))
    (hh : MergeHyps src dest si di) : MergeSpec src dest si di := by
  obtain ⟨hfs, hfd, hss, hsd, hcc, hufS, hufD⟩ := hh
  have hx' : src.count ≤ si ∨ dest.count ≤ di := by
    simp only [TableKeys.size, not_and, not_lt] at hx
    by_cases h1 : si < src.count
    · exact Or.inr (hx h1)
    · exact Or.inl (by omega)
  unfold MergeSpec mergedSrc mergedDest
  rw [compareKeysLoop_exit hx]
  obtain ⟨hc1, _, _, hl1, hp1, hs1⟩ := drainFlags_spec src si hfs
  obtain ⟨hc2, _, _, hl2, hp2, hs2⟩ := drainFlags_spec dest di hfd
  refine ⟨hc1, hc2, hl1, hl2, hp1, hp2, ?_, ?_⟩
  · intro i h1 h2
    rcases hx' with hx' | hx'
    · omega
    · rw [hs1 i h1 h2, notMemFrom_of_exhausted dest hx']
  · intro j h1 h2
    rcases hx' with hx' | hx'
    · rw [hs2 j h1 h2, notMemFrom_of_exhausted src hx']
    · omega

theorem mergeSpec_aux (n : Nat) : ∀ (src dest : TableKeys) (si di : Nat),
    (src.count - si) + (dest.count - di) ≤ n →
    MergeHyps src dest si di → MergeSpec src dest si di := by
  induction n with
  | zero =>
    intro src dest si di hm hh
    refine mergeSpec_exit src dest si di ?_ hh
    simp only [TableKeys.size, not_and, not_lt]
    omega
  | succ n ih =>
    intro src dest si di hm hh
    obtain ⟨hfs, hfd, hss, hsd, hcc, hufS, hufD⟩ := hh
    by_cases hx : si < src.size ∧ di < dest.size
    rotate_left
    · exact mergeSpec_exit src dest si di hx ⟨hfs, hfd, hss, hsd, hcc, hufS, hufD⟩
    have hsi : si < src.count := hx.1
    have hdi : di < dest.count := hx.2
    rcases hl : src.less si dest di with _ | _
    · rcases hl2 : dest.less di src si with _ | _
      · -- neither side less: the keys are equivalent, advance both cursors
        have hne1 : ¬ cmpX (src.lrow si) (dest.lrow di) = POrd.lt :=
          (TableKeys.less_false_iff _ _ _ _).mp hl
        have hne2 : ¬ cmpX (dest.lrow di) (src.lrow si) = POrd.lt :=
          (TableKeys.less_false_iff _ _ _ _).mp hl2
        have hrc := hcc si hsi di hdi
        have heq : src.lrow si = dest.lrow di := by
          rcases cmpX_total hrc with h | h | h
          · exact absurd h hne1
          · exact (cmpX_eq_iff hrc.1).mp h
          · exact absurd (cmpX_gt_flip hrc.1 h) hne2
        have hm' : (src.count - (si + 1)) + (dest.count - (di + 1)) ≤ n := by
          omega
        have hh' : MergeHyps src dest (si + 1) (di + 1) :=
          ⟨hfs, hfd, hss, hsd, hcc, fun i h1 h2 => hufS i (by omega) h2,
            fun j h1 h2 => hufD j (by omega) h2⟩
        obtain ⟨sc1, sc2, sl1, sl2, sp1, sp2, ss1, ss2⟩ :=
          ih src dest (si + 1) (di + 1) hm' hh'
        unfold MergeSpec
        simp only [mergedSrc, mergedDest] at sc1 sc2 sl1 sl2 sp1 sp2 ss1 ss2 ⊢
        rw [compareKeysLoop_both hx hl hl2]
        refine ⟨sc1, sc2, sl1, sl2, ?_, ?_, ?_, ?_⟩
        · intro i hi
          exact sp1 i (by omega)
        · intro j hj
          exact sp2 j (by omega)
        · intro i h1 h2
          rcases Nat.eq_or_lt_of_le h1 with he | hgt
          · subst he
            rw [sp1 si (by omega), hufS si (le_refl _) hsi,
              notMemFrom_false dest (le_refl di) hdi heq.symm]
          · rw [ss1 i (by omega) h2, notMemFrom_succ dest hdi]
            have hne : dest.lrow di ≠ src.lrow i := by
              rw [← heq]
              exact cmpX_ne_of_lt (hss i h2 si hgt)
            rw [decide_eq_true hne, Bool.true_and]
        · intro j h1 h2
          rcases Nat.eq_or_lt_of_le h1 with he | hgt
          · subst he
            rw [sp2 di (by omega), hufD di (le_refl _) hdi,
              notMemFrom_false src (le_refl si) hsi heq]
          · rw [ss2 j (by omega) h2, notMemFrom_succ src hsi]
            have hne : src.lrow si ≠ dest.lrow j := by
              rw [heq]
              exact cmpX_ne_of_lt (hsd j h2 di hgt)
            rw [decide_eq_true hne, Bool.true_and]
      · -- target key less: flag it target-only, advance the target cursor
        have hlt : cmpX (dest.lrow di) (src.lrow si) = POrd.lt :=
          (TableKeys.less_true_iff _ _ _ _).mp hl2
        have hm' : (src.count - si) +
            ((dest.setFlag di true).count - (di + 1)) ≤ n := by
          rw [TableKeys.setFlag_count]
          omega
        have hh' : MergeHyps src (dest.setFlag di true) si (di + 1) := by
          refine ⟨hfs, ?_, hss, ?_, ?_, hufS, ?_⟩
          · rw [TableKeys.setFlag_flags_length, TableKeys.setFlag_count]
            exact hfd
          · intro j hj i hij
            rw [TableKeys.setFlag_count] at hj
            rw [TableKeys.setFlag_lrow, TableKeys.setFlag_lrow]
            exact hsd j hj i hij
          · intro i hi j hj
            rw [TableKeys.setFlag_count] at hj
            rw [TableKeys.setFlag_lrow]
            exact hcc i hi j hj
          · intro j h1 h2
            rw [TableKeys.setFlag_count] at h2
            rw [TableKeys.setFlag_get?_other true (by omega)]
            exact hufD j (by omega) h2
        obtain ⟨sc1, sc2, sl1, sl2, sp1, sp2, ss1, ss2⟩ :=
          ih src (dest.setFlag di true) si (di + 1) hm' hh'
        unfold MergeSpec
        simp only [mergedSrc, mergedDest] at sc1 sc2 sl1 sl2 sp1 sp2 ss1 ss2 ⊢
        rw [compareKeysLoop_gt hx hl hl2]
        rw [TableKeys.setFlag_count] at sc2 sl2
        refine ⟨sc1, sc2, sl1, sl2, sp1, ?_, ?_, ?_⟩
        · intro j hj
          rw [sp2 j (by omega), TableKeys.setFlag_get?_other true (by omega)]
        · intro i h1 h2
          rw [ss1 i h1 h2, notMemFrom_setFlag, notMemFrom_succ dest hdi]
          have hne : dest.lrow di ≠ src.lrow i := by
            rcases Nat.eq_or_lt_of_le h1 with hie | hig
            · subst hie
              exact cmpX_ne_of_lt hlt
            · exact cmpX_ne_of_lt (cmpX_trans_lt hlt (hss i h2 si hig))
          rw [decide_eq_true hne, Bool.true_and]
        · intro j h1 h2
          rcases Nat.eq_or_lt_of_le h1 with he | hgt
          · subst he
            rw [sp2 di (by omega),
              TableKeys.setFlag_get?_same true (by rw [hfd]; exact hdi)]
            have hnm : notMemFrom src si (dest.lrow di) = true := by
              rw [notMemFrom_iff]
              intro i h1i h2i
              rcases Nat.eq_or_lt_of_le h1i with hie | hig
              · subst hie
                exact fun hc => (cmpX_ne_of_lt hlt) hc.symm
              · have : cmpX (dest.lrow di) (src.lrow i) = POrd.lt :=
                  cmpX_trans_lt hlt (hss i h2i si hig)
                exact fun hc => (cmpX_ne_of_lt this) hc.symm
            rw [hnm]
          · rw [ss2 j (by omega) (by rw [TableKeys.setFlag_count]; exact h2),
              TableKeys.setFlag_lrow]
    · -- source key less: flag it source-only, advance the source cursor
      have hlt : cmpX (src.lrow si) (dest.lrow di) = POrd.lt :=
        (TableKeys.less_true_iff _ _ _ _).mp hl
      have hm' : ((src.setFlag si true).count - (si + 1)) +
          (dest.count - di) ≤ n := by
        rw [TableKeys.setFlag_count]
        omega
      have hh' : MergeHyps (src.setFlag si true) dest (si + 1) di := by
        refine ⟨?_, hfd, ?_, hsd, ?_, ?_, hufD⟩
        · rw [TableKeys.setFlag_flags_length, TableKeys.setFlag_count]
          exact hfs
        · intro j hj i hij
          rw [TableKeys.setFlag_count] at hj
          rw [TableKeys.setFlag_lrow, TableKeys.setFlag_lrow]
          exact hss j hj i hij
        · intro i hi j hj
          rw [TableKeys.setFlag_count] at hi
          rw [TableKeys.setFlag_lrow]
          exact hcc i hi j hj
        · intro i h1 h2
          rw [TableKeys.setFlag_count] at h2
          rw [TableKeys.setFlag_get?_other true (by omega)]
          exact hufS i (by omega) h2
      obtain ⟨sc1, sc2, sl1, sl2, sp1, sp2, ss1, ss2⟩ :=
        ih (src.setFlag si true) dest (si + 1) di hm' hh'
      unfold MergeSpec
      simp only [mergedSrc, mergedDest] at sc1 sc2 sl1 sl2 sp1 sp2 ss1 ss2 ⊢
      rw [compareKeysLoop_lt hx hl]
      rw [TableKeys.setFlag_count] at sc1 sl1
      refine ⟨sc1, sc2, sl1, sl2, ?_, sp2, ?_, ?_⟩
      · intro i hi
        rw [sp1 i (by omega), TableKeys.setFlag_get?_other true (by omega)]
      · intro i h1 h2
        rcases Nat.eq_or_lt_of_le h1 with he | hgt
        · subst he
          rw [sp1 si (by omega),
            TableKeys.setFlag_get?_same true (by rw [hfs]; exact hsi)]
          have hnm : notMemFrom dest di (src.lrow si) = true := by
            rw [notMemFrom_iff]
            intro j h1j h2j
            rcases Nat.eq_or_lt_of_le h1j with hje | hjg
            · subst hje
              exact fun hc => (cmpX_ne_of_lt hlt) hc.symm
            · have : cmpX (src.lrow si) (dest.lrow j) = POrd.lt :=
                cmpX_trans_lt hlt (hsd j h2j di hjg)
              exact fun hc => (cmpX_ne_of_lt this) hc.symm
          rw [hnm]
        · rw [ss1 i (by omega) (by rw [TableKeys.setFlag_count]; exact h2),
            TableKeys.setFlag_lrow]
      · intro j h1 h2
        rw [ss2 j h1 h2, notMemFrom_setFlag, notMemFrom_succ src hsi]
        have hne : src.lrow si ≠ dest.lrow j := by
          rcases Nat.eq_or_lt_of_le h1 with hje | hjg
          · subst hje
            exact cmpX_ne_of_lt hlt
          · exact cmpX_ne_of_lt (cmpX_trans_lt hlt (hsd j h2 di hjg))
        rw [decide_eq_true hne, Bool.true_and]

theorem replicate_get?_lt {n i : Nat} (h : i < n) :
    (List.replicate n false).get? i = some false := by
  rw [List.get?_eq_getElem?, List.getElem?_eq_getElem (by simp; omega)]
  simp

theorem bool_count_add (l : List Bool) :
    l.count true + l.count false = l.length := by
  induction l with
  | nil => rfl
  | cons b bs ih =>
    rcases b with _ | _
    · rw [List.count_cons_of_ne (by decide), List.count_cons_self,
        List.length_cons]
      omega
    · rw [List.count_cons_self, List.count_cons_of_ne (by decide),
        List.length_cons]
      omega

theorem notMemFrom_false_iff (t : TableKeys) (a : XRow) :
    notMemFrom t 0 a = false ↔ a ∈ (List.range t.count).map t.lrow := by
  constructor
  · intro h
    by_contra hmem
    have : notMemFrom t 0 a = true := by
      rw [notMemFrom_iff]
      intro j _ hj he
      exact hmem (List.mem_map.mpr ⟨j, List.mem_range.mpr hj, he⟩)
    rw [this] at h
    cases h
  · intro hmem
    obtain ⟨j, hj, he⟩ := List.mem_map.mp hmem
    exact notMemFrom_false t (Nat.zero_le j) (List.mem_range.mp hj) he

theorem rcompat_of_tagsEq {a b : XRow}
    (h : a.map (Option.map Value.tag) = b.map (Option.map Value.tag)) :
    RCompat a b := by
  constructor
  · have := congrArg List.length h
    simpa using this
  · induction a generalizing b with
    | nil => intro pr hpr; cases hpr
    | cons x xs ih =>
      cases b with
      | nil => cases h
      | cons y ys =>
        simp only [List.map_cons, List.cons.injEq] at h
        intro pr hpr
        rcases List.mem_cons.mp (by simpa [List.zip_cons_cons] using hpr)
          with hh | hh
        · subst hh
          intro v w hv hw
          subst hv
          subst hw
          simp only [Option.map_some'] at h
          exact Option.some.inj h.1
        · exact ih h.2 pr hh

theorem flags_closed_form {k : TableKeys} {n : Nat} {f : Nat → Bool}
    (hl : k.flags.length = n)
    (hg : ∀ i, i < n → k.flags.get? i = some (f i)) :
    k.flags = (List.range n).map f := by
  apply List.ext_get?
  intro i
  rcases Nat.lt_or_ge i n with hi | hi
  · rw [hg i hi, List.get?_eq_getElem?, List.getElem?_map,
      List.getElem?_range hi]
    rfl
  · rw [List.get?_eq_getElem?, List.get?_eq_getElem?,
      List.getElem?_eq_none (by omega),
      List.getElem?_eq_none (by simp; omega)]

theorem count_false_filter (t other : TableKeys) :
    (((List.range t.count).map
        (fun i => notMemFrom other 0 (t.lrow i))).count false) =
      (((List.range t.count).map t.lrow).filter
        (fun a => decide (a ∈ (List.range other.count).map other.lrow))).length := by
  rw [← List.countP_eq_length_filter, List.count_eq_countP,
    List.countP_map, List.countP_map]
  apply List.countP_congr
  intro i _
  show ((notMemFrom other 0 (t.lrow i)) == false) = true ↔
    decide (t.lrow i ∈ (List.range other.count).map other.lrow) = true
  rcases hb : notMemFrom other 0 (t.lrow i) with _ | _
  · have hmem := (notMemFrom_false_iff other (t.lrow i)).mp hb
    simp [hmem]
  · have hmem : ¬ (t.lrow i ∈ (List.range other.count).map other.lrow) := by
      intro hmem
      rw [(notMemFrom_false_iff other (t.lrow i)).mpr hmem] at hb
      cases hb
    simp [hmem]

theorem lrows_nodup (t : TableKeys)
    (hstrict : ∀ j, j < t.count → ∀ i, i < j →
      cmpX (t.lrow i) (t.lrow j) = POrd.lt) :
    ((List.range t.count).map t.lrow).Nodup := by
  have hpw : List.Pairwise (· < ·) (List.range t.count) :=
    List.pairwise_lt_range t.count
  show List.Pairwise _ _
  rw [List.pairwise_map]
  refine hpw.imp_of_mem ?_
  intro a b ha hb hab
  exact cmpX_ne_of_lt (hstrict b (List.mem_range.mp hb) a hab)

theorem filtered_length_eq (src dest : TableKeys)
    (hss : ∀ j, j < src.count → ∀ i, i < j →
      cmpX (src.lrow i) (src.lrow j) = POrd.lt)
    (hsd : ∀ j, j < dest.count → ∀ i, i < j →
      cmpX (dest.lrow i) (dest.lrow j) = POrd.lt) :
    (((List.range src.count).map src.lrow).filter
        (fun a => decide (a ∈ (List.range dest.count).map dest.lrow))).length =
      (((List.range dest.count).map dest.lrow).filter
        (fun a => decide (a ∈ (List.range src.count).map src.lrow))).length := by
  apply List.Perm.length_eq
  rw [List.perm_ext_iff_of_nodup ((lrows_nodup src hss).filter _)
    ((lrows_nodup dest hsd).filter _)]
  intro a
  simp only [List.mem_filter, decide_eq_true_eq]
  tauto

/-- Claim C1 — for sorted, duplicate-free, columnwise type-compatible key
tables, after `Operation::compareKeys` returns `(onlySrc, common, onlyDest)`:
a source row's flag is true iff its key occurs nowhere in the target, a
target row's flag is true iff its key occurs nowhere in the source,
`onlySrc + common = |src|`, `onlyDest + common = |dest|`, and the number of
unflagged source rows equals the number of unflagged target rows (the common
keys). -/
theorem dbsync_c1_compareKeys (src dest : TableKeys)
    (hfs : src.flags = List.replicate src.count false)
    (hfd : dest.flags = List.replicate dest.count false)
    (hss : ∀ j, j < src.count → ∀ i, i < j →
      cmpX (src.lrow i) (src.lrow j) = POrd.lt)
    (hsd : ∀ j, j < dest.count → ∀ i, i < j →
      cmpX (dest.lrow i) (dest.lrow j) = POrd.lt)
    (hcc : ∀ i, i < src.count → ∀ j, j < dest.count →
      RCompat (src.lrow i) (dest.lrow j)) :
    (∀ i, i < src.count →
      ((Operation.compareKeys src dest).1.1.flags.get? i = some true ↔
        ∀ j, j < dest.count → dest.lrow j ≠ src.lrow i)) ∧
    (∀ j, j < dest.count →
      ((Operation.compareKeys src dest).1.2.flags.get? j = some true ↔
        ∀ i, i < src.count → src.lrow i ≠ dest.lrow j)) ∧
    (Operation.compareKeys src dest).2.1 +
      (Operation.compareKeys src dest).2.2.1 = src.count ∧
    (Operation.compareKeys src dest).2.2.2 +
      (Operation.compareKeys src dest).2.2.1 = dest.count ∧
    (Operation.compareKeys src dest).1.1.flags.count false =
      (Operation.compareKeys src dest).1.2.flags.count false := by
  have hh : MergeHyps src dest 0 0 := by
    refine ⟨by rw [hfs]; simp, by rw [hfd]; simp, hss, hsd, hcc, ?_, ?_⟩
    · intro i _ h2
      rw [hfs]
      exact replicate_get?_lt h2
    · intro j _ h2
      rw [hfd]
      exact replicate_get?_lt h2
  obtain ⟨sc1, sc2, sl1, sl2, _, _, ss1, ss2⟩ :=
    mergeSpec_aux (src.count + dest.count) src dest 0 0 (by omega) hh
  have e1 : (Operation.compareKeys src dest).1.1 = mergedSrc src dest 0 0 := rfl
  have e2 : (Operation.compareKeys src dest).1.2 = mergedDest src dest 0 0 := rfl
  have e3 : (Operation.compareKeys src dest).2.1 =
      (mergedSrc src dest 0 0).sizeFlag true := rfl
  have e4 : (Operation.compareKeys src dest).2.2.1 =
      (mergedSrc src dest 0 0).size - (mergedSrc src dest 0 0).sizeFlag true := rfl
  have e5 : (Operation.compareKeys src dest).2.2.2 =
      (mergedDest src dest 0 0).sizeFlag true := rfl
  have hflS : (mergedSrc src dest 0 0).flags =
      (List.range src.count).map (fun i => notMemFrom dest 0 (src.lrow i)) :=
    flags_closed_form sl1 (fun i hi => ss1 i (Nat.zero_le i) hi)
  have hflD : (mergedDest src dest 0 0).flags =
      (List.range dest.count).map (fun j => notMemFrom src 0 (dest.lrow j)) :=
    flags_closed_form sl2 (fun j hj => ss2 j (Nat.zero_le j) hj)
  have hcntS := bool_count_add (mergedSrc src dest 0 0).flags
  have hcntD := bool_count_add (mergedDest src dest 0 0).flags
  rw [sl1] at hcntS
  rw [sl2] at hcntD
  have hfalse : (mergedSrc src dest 0 0).flags.count false =
      (mergedDest src dest 0 0).flags.count false := by
    rw [hflS, hflD, count_false_filter src dest, count_false_filter dest src]
    exact filtered_length_eq src dest hss hsd
  refine ⟨?_, ?_, ?_, ?_, ?_⟩
  · intro i hi
    rw [e1, ss1 i (Nat.zero_le i) hi]
    constructor
    · intro h j hj
      exact (notMemFrom_iff dest 0 (src.lrow i)).mp
        (Option.some.inj h) j (Nat.zero_le j) hj
    · intro h
      rw [(notMemFrom_iff dest 0 (src.lrow i)).mpr
        (fun j _ hj => h j hj)]
  · intro j hj
    rw [e2, ss2 j (Nat.zero_le j) hj]
    constructor
    · intro h i hi
      exact (notMemFrom_iff src 0 (dest.lrow j)).mp
        (Option.some.inj h) i (Nat.zero_le i) hi
    · intro h
      rw [(notMemFrom_iff src 0 (dest.lrow j)).mpr
        (fun i _ hi => h i hi)]
  · rw [e3, e4]
    show (mergedSrc src dest 0 0).flags.count true +
      ((mergedSrc src dest 0 0).count -
        (mergedSrc src dest 0 0).flags.count true) = src.count
    rw [sc1]
    have hle : (mergedSrc src dest 0 0).flags.count true ≤ src.count := by
      omega
    omega
  · rw [e5, e4]
    show (mergedDest src dest 0 0).flags.count true +
      ((mergedSrc src dest 0 0).count -
        (mergedSrc src dest 0 0).flags.count true) = dest.count
    rw [sc1]
    omega
  · rw [e1, e2]
    exact hfalse

/-- A concrete two-row, one-key-column source table (keys 1 and 2). -/
def srcW : TableKeys :=
  ⟨2, ["k"], [0, 1], [[Value.vI 1, Value.vI 2]], [false, false], true⟩

/-- A concrete two-row, one-key-column target table (keys 2 and 3). -/
def destW : TableKeys :=
  ⟨2, ["k"], [0, 1], [[Value.vI 2, Value.vI 3]], [false, false], true⟩

/-- Witness for C1: the theorem applied to the concrete tables `srcW`
(keys 1, 2) and `destW` (keys 2, 3), every hypothesis discharged by
evaluation. -/
theorem dbsync_c1_compareKeys_witness :
    (∀ i, i < srcW.count →
      ((Operation.compareKeys srcW destW).1.1.flags.get? i = some true ↔
        ∀ j, j < destW.count → destW.lrow j ≠ srcW.lrow i)) ∧
    (∀ j, j < destW.count →
      ((Operation.compareKeys srcW destW).1.2.flags.get? j = some true ↔
        ∀ i, i < srcW.count → srcW.lrow i ≠ destW.lrow j)) ∧
    (Operation.compareKeys srcW destW).2.1 +
      (Operation.compareKeys srcW destW).2.2.1 = srcW.count ∧
    (Operation.compareKeys srcW destW).2.2.2 +
      (Operation.compareKeys srcW destW).2.2.1 = destW.count ∧
    (Operation.compareKeys srcW destW).1.1.flags.count false =
      (Operation.compareKeys srcW destW).1.2.flags.count false :=
  dbsync_c1_compareKeys srcW destW (by decide) (by decide) (by decide) (by decide)
    (by
      intro i hi j hj
      have hi2 : i < 2 := hi
      have hj2 : j < 2 := hj
      apply rcompat_of_tagsEq
      rcases i with _ | _ | i <;> rcases j with _ | _ | j <;>
        first | decide | omega)
